import Mathlib

/-!
Shallow embedding of the markdown-escaping engine of `src/util/Util.js`
(`Util.escapeMarkdown` and the `escape*` family).  Strings are modelled as
`List Char`; each JavaScript regex `replace` is modelled as a left-to-right
scanner that either fires a match at the current position (consuming the
matched text and emitting a replacement, exactly as the JS regex engine does
with a `/g` regex: replacements are not rescanned, lookbehind reads the
original character preceding the current position, and after a failed match
attempt the scan advances by one character) or copies one character.
-/

set_option autoImplicit false

namespace MdEscape

/-- The backtick character (code point 96). -/
def bt : Char := Char.ofNat 96

/-- Generic fueled scanner.  `step st c cs` inspects the current character `c`
and the remaining text `cs`; `some (st', repl, n)` means the regex matched the
`1 + n` characters `c :: cs.take n`, which are replaced by `repl`, with new
scanner state `st'`.  `none` means no match starts here: `c` is copied and the
state is updated by `upd` (which tracks the previous character for
lookbehinds).  The fuel is instantiated with the length of the input, which is
always sufficient. -/
def rwGo {σ : Type} (step : σ → Char → List Char → Option (σ × List Char × Nat))
    (upd : σ → Char → σ) : Nat → σ → List Char → List Char
  | 0, _, s => s
  | _ + 1, _, [] => []
  | fuel + 1, st, c :: cs =>
    match step st c cs with
    | some (st', repl, n) => repl ++ rwGo step upd fuel st' (cs.drop n)
    | none => c :: rwGo step upd fuel (upd st c) cs

/-- Run a scanner over a whole string. -/
def rwAll {σ : Type} (step : σ → Char → List Char → Option (σ × List Char × Nat))
    (upd : σ → Char → σ) (st : σ) (s : List Char) : List Char :=
  rwGo step upd s.length st s

/-- Step function for `String.replaceAll(tok, rep)` (literal, non-overlapping,
leftmost-first), as used by `escapeCodeBlock`, `escapeStrikethrough`,
`escapeSpoiler` and `escapeEscape`. -/
def tokStep (tok rep : List Char) : Unit → Char → List Char → Option (Unit × List Char × Nat) :=
  fun _ c cs =>
    match tok with
    | [] => none
    | t :: ts => if c = t ∧ ts.isPrefixOf cs then some ((), rep, ts.length) else none

/-- `text.replaceAll(tok, rep)` on `List Char`. -/
def replaceAllTok (tok rep : List Char) (s : List Char) : List Char :=
  rwAll (tokStep tok rep) (fun _ _ => ()) () s

/-- The ``` fence token. -/
def fence : List Char := [bt, bt, bt]

/-- The escaped fence `\`\`\``. -/
def escFence : List Char := ['\\', bt, '\\', bt, '\\', bt]

/-- `Util.escapeCodeBlock`: `text.replaceAll('```', '\\`\\`\\`')`. -/
def escapeCodeBlock (s : List Char) : List Char := replaceAllTok fence escFence s

/-- `Util.escapeStrikethrough`: `text.replaceAll('~~', '\\~\\~')`. -/
def escapeStrikethrough (s : List Char) : List Char :=
  replaceAllTok ['~', '~'] ['\\', '~', '\\', '~'] s

/-- `Util.escapeSpoiler`: `text.replaceAll('||', '\\|\\|')`. -/
def escapeSpoiler (s : List Char) : List Char :=
  replaceAllTok ['|', '|'] ['\\', '|', '\\', '|'] s

/-- `Util.escapeEscape`: `text.replaceAll('\\', '\\\\')`. -/
def escapeEscape (s : List Char) : List Char :=
  replaceAllTok ['\\'] ['\\', '\\'] s

/-- One marker family of `Util.escapeItalic`:
`text.replace(/(?<=^|[^*])\*([^*]|\*\*|$)/g, (_, match) => ...)` with a
per-invocation counter `i`.  The scanner state is `(previous character,
counter)`; the lookbehind `(?<=^|[^*])` is `prev ≠ some mk`.  The capture
group tries, in the regex's alternation order, a single non-marker character,
the doubled marker, or end of string; if all three fail (a marker followed by
exactly one more marker and then a non-marker) there is no match here.
On a doubled-marker capture the counter is pre-incremented; an odd value
yields `\\*` before the pair, an even value the pair followed by `\\*`. -/
def italicStep (mk : Char) :
    Option Char × Nat → Char → List Char → Option ((Option Char × Nat) × List Char × Nat) :=
  fun st c cs =>
    if c = mk ∧ st.1 ≠ some mk then
      match cs with
      | [] => some ((some mk, st.2), ['\\', mk], 0)
      | d :: ds =>
        if d = mk then
          match ds with
          | [] => none
          | e :: _ =>
            if e = mk then
              some ((some mk, st.2 + 1),
                if (st.2 + 1) % 2 = 1 then ['\\', mk, mk, mk] else [mk, mk, '\\', mk], 2)
            else none
        else some ((some d, st.2), ['\\', mk, d], 1)
    else none

/-- State update for scanners whose state is (previous character, counter). -/
def prevUpd : Option Char × Nat → Char → Option Char × Nat :=
  fun st c => (some c, st.2)

/-- One pass of `escapeItalic` for one marker character. -/
def italicPass (mk : Char) (s : List Char) : List Char :=
  rwAll (italicStep mk) prevUpd (none, 0) s

/-- `Util.escapeItalic`: the `*` pass followed by the `_` pass, each with its
own counter starting at 0. -/
def escapeItalic (s : List Char) : List Char :=
  italicPass '_' (italicPass '*' s)

/-- Step function shared by `Util.escapeBold` (`/\*\*(\*)?/g`) and
`Util.escapeUnderline` (`/__(_)?/g`).  State is the counter alone (the regex
has no lookbehind).  A doubled marker with a third marker captured
pre-increments the counter: odd yields the captured single marker followed by
the escaped pair, even the escaped pair followed by the captured marker; a
bare doubled marker is replaced by the escaped pair without touching the
counter. -/
def boldStep (mk : Char) : Nat → Char → List Char → Option (Nat × List Char × Nat) :=
  fun i c cs =>
    if c = mk then
      match cs with
      | [] => none
      | d :: ds =>
        if d = mk then
          match ds with
          | [] => some (i, ['\\', mk, '\\', mk], 1)
          | e :: _ =>
            if e = mk then
              some (i + 1,
                if (i + 1) % 2 = 1 then [mk, '\\', mk, '\\', mk] else ['\\', mk, '\\', mk, mk], 2)
            else some (i, ['\\', mk, '\\', mk], 1)
        else none
    else none

/-- `Util.escapeBold`. -/
def escapeBold (s : List Char) : List Char :=
  rwAll (boldStep '*') (fun i _ => i) 0 s

/-- `Util.escapeUnderline`. -/
def escapeUnderline (s : List Char) : List Char :=
  rwAll (boldStep '_') (fun i _ => i) 0 s

/-- `Util.escapeInlineCode`:
`text.replace(/(?<=^|[^`])``?(?=[^`]|$)/g, m => m.length === 2 ? '\\`\\`' : '\\`')`.
The state is the previous character.  The greedy `` ``? `` first tries two
backticks; the lookahead `(?=[^`]|$)` then requires a non-backtick or the end,
otherwise the engine backtracks to a single backtick and re-checks the
lookahead (which then fails on the following backtick), so runs of three or
more backticks are left alone.  The lookahead consumes nothing. -/
def inlineCodeStep : Option Char → Char → List Char → Option (Option Char × List Char × Nat) :=
  fun prev c cs =>
    if c = bt ∧ prev ≠ some bt then
      match cs with
      | [] => some (some bt, ['\\', bt], 0)
      | d :: ds =>
        if d = bt then
          match ds with
          | [] => some (some bt, ['\\', bt, '\\', bt], 1)
          | e :: _ =>
            if e = bt then none else some (some bt, ['\\', bt, '\\', bt], 1)
        else some (some bt, ['\\', bt], 0)
    else none

/-- `Util.escapeInlineCode`. -/
def escapeInlineCode (s : List Char) : List Char :=
  rwAll inlineCodeStep (fun _ c => some c) none s

/-! ### Line-anchored escapers

`escapeHeading`, `escapeBulletedList` and `escapeNumberedList` use
`replaceAll` with a `^`-anchored multiline regex whose pattern cannot match a
newline, so each line is rewritten independently (at most one match per line,
starting at the line start).  We model them by splitting on `'\n'`, rewriting
each line, and rejoining. -/

/-- Number of leading characters satisfying `p`. -/
def countLeading (p : Char → Bool) : List Char → Nat
  | [] => 0
  | c :: cs => if p c then countLeading p cs + 1 else 0

/-- `Array.prototype.join(sep)` on a list of regions. -/
def joinSep (sep : List Char) : List (List Char) → List Char
  | [] => []
  | [a] => a
  | a :: b :: rest => a ++ sep ++ joinSep sep (b :: rest)

/-- Prepend a character to the first region of a split result. -/
def consHead (c : Char) : List (List Char) → List (List Char)
  | p :: ps => (c :: p) :: ps
  | [] => [[c]]

/-- Fueled split on a single character (JS `text.split('\n')` semantics). -/
def splitChGo (ch : Char) : Nat → List Char → List (List Char)
  | 0, s => [s]
  | _ + 1, [] => [[]]
  | fuel + 1, c :: cs =>
    if c = ch then [] :: splitChGo ch fuel cs
    else consHead c (splitChGo ch fuel cs)

/-- `text.split('\n')`-style split on one character. -/
def splitCh (ch : Char) (s : List Char) : List (List Char) := splitChGo ch s.length s

/-- Apply a per-line rewrite to every line. -/
def perLine (f : List Char → List Char) (s : List Char) : List Char :=
  joinSep ['\n'] ((splitCh '\n' s).map f)

/-- Does `r` start with 1–3 `#` followed by a space?  This is the
deterministic reading of the anchored `#{1,3} ` (a longer `#`-run cannot
match: every backtracked attempt leaves a `#` where the space is needed). -/
def headingAt (r : List Char) : Bool :=
  let m := countLeading (fun c => c == '#') r
  decide (1 ≤ m) && decide (m ≤ 3) && ((r.drop m).head? == some ' ')

/-- Length of the optional bullet prefix `( {0,2}[*-] +)` at the start of a
line, if it matches: at most two spaces, a `*` or `-` marker, and at least one
space (taken greedily; backtracking cannot help because the characters
following shorter attempts are spaces, which can satisfy neither `[*-]` nor
`#`). -/
def bulletPre (l : List Char) : Option Nat :=
  let k := countLeading (fun c => c == ' ') l
  if k ≤ 2 then
    match l.drop k with
    | [] => none
    | m :: rest =>
      if m = '*' ∨ m = '-' then
        let j := countLeading (fun c => c == ' ') rest
        if 1 ≤ j then some (k + 1 + j) else none
      else none
  else none

/-- One line of `Util.escapeHeading`:
`replaceAll(/^( {0,2}[*-] +)?(#{1,3} )/gm, '$1\\$2')` — the backslash is
inserted between the optional bullet prefix and the `#` run. -/
def headingLine (l : List Char) : List Char :=
  match bulletPre l with
  | some n => if headingAt (l.drop n) then l.take n ++ '\\' :: l.drop n else l
  | none => if headingAt l then '\\' :: l else l

/-- `Util.escapeHeading`. -/
def escapeHeading (s : List Char) : List Char := perLine headingLine s

/-- One line of `Util.escapeBulletedList`:
`replaceAll(/^( *)[*-]( +)/gm, '$1\\-$2')` — note that the marker itself is
replaced by a literal `-`, whichever of `*`/`-` it was. -/
def bulletedLine (l : List Char) : List Char :=
  let k := countLeading (fun c => c == ' ') l
  match l.drop k with
  | [] => l
  | m :: rest =>
    if m = '*' ∨ m = '-' then
      if 1 ≤ countLeading (fun c => c == ' ') rest then
        l.take k ++ '\\' :: '-' :: rest
      else l
    else l

/-- `Util.escapeBulletedList`. -/
def escapeBulletedList (s : List Char) : List Char := perLine bulletedLine s

/-- One line of `Util.escapeNumberedList`:
`replaceAll(/^( *\d+)\./gm, '$1\\.')`. -/
def numberedLine (l : List Char) : List Char :=
  let k := countLeading (fun c => c == ' ') l
  let d := countLeading Char.isDigit (l.drop k)
  if 1 ≤ d ∧ (l.drop (k + d)).head? = some '.' then
    l.take (k + d) ++ '\\' :: l.drop (k + d)
  else l

/-- `Util.escapeNumberedList`. -/
def escapeNumberedList (s : List Char) : List Char := perLine numberedLine s

/-! ### Masked links

`Util.escapeMaskedLink`: `replaceAll(/\[.+\]\(.+\)/gm, '\\$&')`.  `.` does not
match a newline, so a match stays within one line; the two `.+` are greedy
with backtracking, so a match starting at a given `[` ends at the **last**
`)` of the line that is preceded (with a nonempty gap) by the **last**
`](` pair that still leaves room for that `)`. -/

/-- Is `j` a valid backtracking stop for the first `.+` of
`/\[.+\]\(.+\)/` inside the line remainder `w` (the text after the `[`)?
Requires a nonempty first gap (`1 ≤ j`), the literal `](` at `j`, and some
`)` at least two characters further on. -/
def mlGoodJ (w : List Char) (j : Nat) : Bool :=
  decide (1 ≤ j) && (w.get? j == some ']') && (w.get? (j + 1) == some '(') &&
    (List.range w.length).any fun m => decide (j + 3 ≤ m) && (w.get? m == some ')')

/-- Length of the greedy match of `.+\]\(.+\)` in the text after a `[`, if
any: the regex engine shrinks the first `.+` from the right, so the largest
valid `j` wins, and then the second `.+` is greedy, so the largest `)`
position wins. -/
def mlMatch (cs : List Char) : Option Nat :=
  let w := cs.takeWhile fun c => !(c == '\n')
  match ((List.range w.length).filter (mlGoodJ w)).getLast? with
  | none => none
  | some j =>
    match ((List.range w.length).filter fun m =>
        decide (j + 3 ≤ m) && (w.get? m == some ')')).getLast? with
    | none => none
    | some m => some (m + 1)

/-- Step function of `escapeMaskedLink`: on `[`, try the greedy match; the
whole matched text is kept and prefixed with a single backslash (`'\\$&'`). -/
def maskedStep : Unit → Char → List Char → Option (Unit × List Char × Nat) :=
  fun _ c cs =>
    if c = '[' then
      match mlMatch cs with
      | some n => some ((), '\\' :: c :: cs.take n, n)
      | none => none
    else none

/-- `Util.escapeMaskedLink`. -/
def escapeMaskedLink (s : List Char) : List Char :=
  rwAll maskedStep (fun _ _ => ()) () s

/-! ### The composer `Util.escapeMarkdown` -/

/-- The `EscapeMarkdownOptions` object, with the documented defaults. -/
structure MDOpts where
  codeBlock : Bool := true
  inlineCode : Bool := true
  bold : Bool := true
  italic : Bool := true
  underline : Bool := true
  strikethrough : Bool := true
  spoiler : Bool := true
  codeBlockContent : Bool := true
  inlineCodeContent : Bool := true
  escape : Bool := true
  heading : Bool := false
  bulletedList : Bool := false
  numberedList : Bool := false
  maskedLink : Bool := false
  deriving DecidableEq

/-- The options object passed to the recursive call in the
`!codeBlockContent` branch.  The source lists `inlineCode, bold, italic,
underline, strikethrough, spoiler, inlineCodeContent, escape, heading,
bulletedList, numberedList, maskedLink` and omits `codeBlock` and
`codeBlockContent`, which therefore take their defaults (`true`). -/
def cbRecOpts (o : MDOpts) : MDOpts :=
  { inlineCode := o.inlineCode, bold := o.bold, italic := o.italic, underline := o.underline,
    strikethrough := o.strikethrough, spoiler := o.spoiler,
    inlineCodeContent := o.inlineCodeContent, escape := o.escape, heading := o.heading,
    bulletedList := o.bulletedList, numberedList := o.numberedList, maskedLink := o.maskedLink }

/-- The options object passed to the recursive call in the
`!inlineCodeContent` branch.  The source lists `codeBlock, bold, italic,
underline, strikethrough, spoiler, escape, heading, bulletedList,
numberedList, maskedLink` and omits `inlineCode`, `codeBlockContent` and
`inlineCodeContent`, which take their defaults (`true`). -/
def inlRecOpts (o : MDOpts) : MDOpts :=
  { codeBlock := o.codeBlock, bold := o.bold, italic := o.italic, underline := o.underline,
    strikethrough := o.strikethrough, spoiler := o.spoiler, escape := o.escape,
    heading := o.heading, bulletedList := o.bulletedList, numberedList := o.numberedList,
    maskedLink := o.maskedLink }

/-- Fueled split on a literal token (JS `text.split('```')` semantics:
leftmost, non-overlapping). -/
def splitTokGo (tok : List Char) : Nat → List Char → List (List Char)
  | 0, s => [s]
  | _ + 1, [] => [[]]
  | fuel + 1, c :: cs =>
    if tok.isPrefixOf (c :: cs) ∧ tok ≠ [] then
      [] :: splitTokGo tok fuel ((c :: cs).drop tok.length)
    else consHead c (splitTokGo tok fuel cs)

/-- `text.split(tok)` on `List Char`. -/
def splitTok (tok : List Char) (s : List Char) : List (List Char) :=
  splitTokGo tok s.length s

/-- Fueled split on `/(?<=^|[^`])`(?=[^`]|$)/g`: the delimiter is a single
backtick neither preceded nor followed by a backtick (the state is the
previous character).  The matched backtick is removed, as `split` does. -/
def splitInlineGo : Nat → Option Char → List Char → List (List Char)
  | 0, _, s => [s]
  | _ + 1, _, [] => [[]]
  | fuel + 1, prev, c :: cs =>
    if c = bt ∧ prev ≠ some bt ∧ cs.head? ≠ some bt then
      [] :: splitInlineGo fuel (some bt) cs
    else consHead c (splitInlineGo fuel (some c) cs)

/-- `text.split(/(?<=^|[^`])`(?=[^`]|$)/g)` on `List Char`. -/
def splitInline (s : List Char) : List (List Char) := splitInlineGo s.length none s

/-- `List.map` with the element index (JS `Array.prototype.map`'s second
callback argument), starting from `i`. -/
def mapIdxFrom {α β : Type} (f : Nat → α → β) : Nat → List α → List β
  | _, [] => []
  | i, a :: l => f i a :: mapIdxFrom f (i + 1) l

/-- `List.map` with the element index, starting from 0. -/
def mapWithIdx {α β : Type} (f : Nat → α → β) (l : List α) : List β := mapIdxFrom f 0 l

/-- The fixed escaper chain at the end of `escapeMarkdown` (lines 209–221 of
the source), applied when neither content-protection branch was taken. -/
def applyAll (o : MDOpts) (text : List Char) : List Char :=
  let t1 := if o.escape then escapeEscape text else text
  let t2 := if o.inlineCode then escapeInlineCode t1 else t1
  let t3 := if o.codeBlock then escapeCodeBlock t2 else t2
  let t4 := if o.italic then escapeItalic t3 else t3
  let t5 := if o.bold then escapeBold t4 else t4
  let t6 := if o.underline then escapeUnderline t5 else t5
  let t7 := if o.strikethrough then escapeStrikethrough t6 else t6
  let t8 := if o.spoiler then escapeSpoiler t7 else t7
  let t9 := if o.heading then escapeHeading t8 else t8
  let t10 := if o.bulletedList then escapeBulletedList t9 else t9
  let t11 := if o.numberedList then escapeNumberedList t10 else t10
  if o.maskedLink then escapeMaskedLink t11 else t11

/-- `escapeMarkdown` from the `!inlineCodeContent` branch on.  The source's
recursive call in that branch receives `inlRecOpts o`, whose
`codeBlockContent` and `inlineCodeContent` are both `true`, so that call
reduces to the escaper chain: the recursion is unrolled accordingly. -/
def escapeMarkdownInl (o : MDOpts) (text : List Char) : List Char :=
  if o.inlineCodeContent = false then
    let parts := splitInline text
    joinSep (if o.inlineCode then ['\\', bt] else [bt])
      (mapWithIdx
        (fun i s => if i % 2 = 1 ∧ i ≠ parts.length - 1 then s else applyAll (inlRecOpts o) s)
        parts)
  else applyAll o text

/-- `Util.escapeMarkdown`.  The source's recursive call in the
`!codeBlockContent` branch receives `cbRecOpts o`, whose `codeBlockContent`
is `true`, so that call reduces to `escapeMarkdownInl`: the bounded recursion
of the source (depth ≤ 2, since each branch re-enables its own content flag)
is unrolled into `escapeMarkdown` → `escapeMarkdownInl` → `applyAll`.
`escapeMarkdownRec` below is the literal recursive transcription, proved
equal to this definition. -/
def escapeMarkdown (o : MDOpts) (text : List Char) : List Char :=
  if o.codeBlockContent = false then
    let parts := splitTok fence text
    joinSep (if o.codeBlock then escFence else fence)
      (mapWithIdx
        (fun i s =>
          if i % 2 = 1 ∧ i ≠ parts.length - 1 then s else escapeMarkdownInl (cbRecOpts o) s)
        parts)
  else escapeMarkdownInl o text

/-- Literal recursive transcription of `Util.escapeMarkdown` (lines 147–222),
with the source's own recursion. -/
def escapeMarkdownRec (o : MDOpts) (text : List Char) : List Char :=
  if o.codeBlockContent = false then
    let parts := splitTok fence text
    joinSep (if o.codeBlock then escFence else fence)
      (mapWithIdx
        (fun i s =>
          if i % 2 = 1 ∧ i ≠ parts.length - 1 then s else escapeMarkdownRec (cbRecOpts o) s)
        parts)
  else if o.inlineCodeContent = false then
    let parts := splitInline text
    joinSep (if o.inlineCode then ['\\', bt] else [bt])
      (mapWithIdx
        (fun i s =>
          if i % 2 = 1 ∧ i ≠ parts.length - 1 then s else escapeMarkdownRec (inlRecOpts o) s)
        parts)
  else applyAll o text
termination_by
  (if o.codeBlockContent then 0 else 1) + (if o.inlineCodeContent then 0 else 1)
decreasing_by
  all_goals simp_all [cbRecOpts, inlRecOpts]

/-! ### Claim-side (specification-worded) definitions

These definitions follow the wording of the specification's claims; they are
compared with the source-derived definitions above. -/

/-- The three capture shapes of the italic regex, in the claim's wording: a
single non-marker character, the doubled marker pair, or end of string. -/
inductive ItalicCapture : Type
  | single (c : Char)
  | double
  | eos

/-- Classify what the italic regex captures after a marker occurrence. -/
def italicCapture (mk : Char) (cs : List Char) : Option ItalicCapture :=
  match cs with
  | [] => some ItalicCapture.eos
  | d :: ds =>
    if d ≠ mk then some (ItalicCapture.single d)
    else
      match ds with
      | [] => none
      | e :: _ => if e = mk then some ItalicCapture.double else none

/-- Claim-side italic step: each occurrence of the marker not preceded by the
same marker captures per `italicCapture`; when the capture is exactly the
doubled marker the per-invocation counter increments, and on odd increments
the backslash is inserted before the single marker leaving the pair
unescaped, on even increments after the captured pair; any other capture is
escaped in place with no counter interaction. -/
def italicSpecStep (mk : Char) :
    Option Char × Nat → Char → List Char → Option ((Option Char × Nat) × List Char × Nat) :=
  fun st c cs =>
    if c = mk ∧ st.1 ≠ some mk then
      match italicCapture mk cs with
      | some ItalicCapture.double =>
        some ((some mk, st.2 + 1),
          if (st.2 + 1) % 2 = 1 then '\\' :: mk :: [mk, mk] else mk :: mk :: ['\\', mk], 2)
      | some (ItalicCapture.single d) => some ((some d, st.2), '\\' :: [mk, d], 1)
      | some ItalicCapture.eos => some ((some mk, st.2), ['\\', mk], 0)
      | none => none
    else none

/-- Claim-side `escapeItalic`: the `*`-marker pass, then the `_`-marker pass. -/
def escapeItalicSpec (s : List Char) : List Char :=
  rwAll (italicSpecStep '_') prevUpd (none, 0)
    (rwAll (italicSpecStep '*') prevUpd (none, 0) s)

/-- The two capture shapes of the bold regex: a doubled marker with a third
captured marker, or a bare doubled marker. -/
inductive BoldCapture : Type
  | triple
  | bare

/-- Classify a bold-regex match at a doubled marker. -/
def boldCapture (mk : Char) (cs : List Char) : Option BoldCapture :=
  match cs with
  | [] => none
  | d :: ds =>
    if d = mk then
      match ds with
      | [] => some BoldCapture.bare
      | e :: _ => if e = mk then some BoldCapture.triple else some BoldCapture.bare
    else none

/-- Claim C3 as literally stated: on a triple match, odd increments place the
opener escape before the triple (the doubled pair backslashed with the single
marker left trailing), even increments place the escape after (the leading
doubled pair kept in front); a bare doubled marker becomes the escaped pair. -/
def boldClaimStep (mk : Char) : Nat → Char → List Char → Option (Nat × List Char × Nat) :=
  fun i c cs =>
    if c = mk then
      match boldCapture mk cs with
      | some BoldCapture.triple =>
        some (i + 1,
          if (i + 1) % 2 = 1 then '\\' :: mk :: '\\' :: [mk, mk] else mk :: mk :: ['\\', mk], 2)
      | some BoldCapture.bare => some (i, '\\' :: [mk, '\\', mk], 1)
      | none => none
    else none

/-- `escapeBold` as claim C3 literally prescribes. -/
def escapeBoldClaim (s : List Char) : List Char :=
  rwAll (boldClaimStep '*') (fun i _ => i) 0 s

/-- Amended claim C3: on odd increments the captured single marker is placed
before the escaped doubled pair, on even increments after it; a bare doubled
marker becomes the escaped pair with no counter effect. -/
def boldAmendedStep (mk : Char) : Nat → Char → List Char → Option (Nat × List Char × Nat) :=
  fun i c cs =>
    if c = mk then
      match boldCapture mk cs with
      | some BoldCapture.triple =>
        some (i + 1,
          if (i + 1) % 2 = 1 then mk :: '\\' :: mk :: ['\\', mk] else '\\' :: mk :: '\\' :: [mk, mk], 2)
      | some BoldCapture.bare => some (i, '\\' :: [mk, '\\', mk], 1)
      | none => none
    else none

/-- `escapeBold` as the amended claim C3 prescribes. -/
def escapeBoldAmended (s : List Char) : List Char :=
  rwAll (boldAmendedStep '*') (fun i _ => i) 0 s

/-- Claim-amended masked-link step: on `[`, the greedy match — which may span
several bracketed spans of one line — is kept verbatim and prefixed with a
single backslash. -/
def maskedAmendedStep : Unit → Char → List Char → Option (Unit × List Char × Nat) :=
  fun _ c cs =>
    if c = '[' then
      match mlMatch cs with
      | some n =>
        let matched := c :: cs.take n
        some ((), '\\' :: matched, n)
      | none => none
    else none

/-- Claim-amended `escapeMaskedLink`. -/
def escapeMaskedLinkAmended (s : List Char) : List Char :=
  rwAll maskedAmendedStep (fun _ _ => ()) () s

/-- The spec's region rule: the odd-indexed regions, except the final region,
are protected; every other region is escaped. -/
def protectOddMiddle (esc : List Char → List Char) (parts : List (List Char)) :
    List (List Char) :=
  mapWithIdx (fun i s => if i % 2 = 1 ∧ i ≠ parts.length - 1 then s else esc s) parts

/-- Apply an escaper only when its flag is enabled. -/
def applyIf (b : Bool) (f : List Char → List Char) (t : List Char) : List Char :=
  if b then f t else t

/-- Options with every construct (including `escape`) disabled. -/
def onlyBase : MDOpts :=
  { codeBlock := false, inlineCode := false, bold := false, italic := false, underline := false,
    strikethrough := false, spoiler := false, escape := false }

/-- Single-construct configurations (all other constructs disabled). -/
def onlyCodeBlock : MDOpts := { onlyBase with codeBlock := true }

def onlyInlineCode : MDOpts := { onlyBase with inlineCode := true }

def onlyItalic : MDOpts := { onlyBase with italic := true }

def onlyBold : MDOpts := { onlyBase with bold := true }

def onlyUnderline : MDOpts := { onlyBase with underline := true }

def onlyStrikethrough : MDOpts := { onlyBase with strikethrough := true }

def onlySpoiler : MDOpts := { onlyBase with spoiler := true }

def onlyHeading : MDOpts := { onlyBase with heading := true }

def onlyBulletedList : MDOpts := { onlyBase with bulletedList := true }

def onlyNumberedList : MDOpts := { onlyBase with numberedList := true }

def onlyMaskedLink : MDOpts := { onlyBase with maskedLink := true }

/-- The options of claim C8's counterexample: only the inline-code protection
branch is taken, with every construct flag (including `inlineCode`) false. -/
def c8opts : MDOpts :=
  { codeBlock := false, inlineCode := false, bold := false, italic := false, underline := false,
    strikethrough := false, spoiler := false, inlineCodeContent := false, escape := false }

/-! ### Generic scanner lemmas -/

/-- If every replacement a step emits agrees with the text it consumes after
filtering by `q`, the whole scan preserves the `q`-filtered text. -/
theorem rwGo_filter {σ : Type} (step : σ → Char → List Char → Option (σ × List Char × Nat))
    (upd : σ → Char → σ) (q : Char → Bool)
    (H : ∀ st c cs st' repl n, step st c cs = some (st', repl, n) →
      repl.filter q = (c :: cs.take n).filter q) :
    ∀ (fuel : Nat) (st : σ) (s : List Char), s.length ≤ fuel →
      (rwGo step upd fuel st s).filter q = s.filter q := by
  intro fuel
  induction fuel with
  | zero => intro st s _; rfl
  | succ fuel ih =>
    intro st s h
    match s with
    | [] => rfl
    | c :: cs =>
      have hcs : cs.length ≤ fuel := by simpa using Nat.le_of_succ_le_succ h
      simp only [rwGo]
      cases hstep : step st c cs with
      | none =>
        simp only [List.filter_cons, ih (upd st c) cs hcs]
      | some r =>
        obtain ⟨st', repl, n⟩ := r
        have hdrop : (cs.drop n).length ≤ fuel := by rw [List.length_drop]; omega
        rw [List.filter_append, H _ _ _ _ _ _ hstep, ih st' (cs.drop n) hdrop,
          List.filter_cons, List.filter_cons]
        cases hq : q c <;>
          simp [hq, ← List.filter_append, List.take_append_drop]

/-- If every replacement is at least as long as the `n + 1` characters it
consumes, the scan never shrinks the text. -/
theorem rwGo_length {σ : Type} (step : σ → Char → List Char → Option (σ × List Char × Nat))
    (upd : σ → Char → σ)
    (H : ∀ st c cs st' repl n, step st c cs = some (st', repl, n) → n + 1 ≤ repl.length) :
    ∀ (fuel : Nat) (st : σ) (s : List Char), s.length ≤ fuel →
      s.length ≤ (rwGo step upd fuel st s).length := by
  intro fuel
  induction fuel with
  | zero => intro st s _; exact Nat.le_refl _
  | succ fuel ih =>
    intro st s h
    match s with
    | [] => exact Nat.le_refl _
    | c :: cs =>
      have hcs : cs.length ≤ fuel := by simpa using Nat.le_of_succ_le_succ h
      simp only [rwGo]
      cases hstep : step st c cs with
      | none =>
        have := ih (upd st c) cs hcs
        simpa using Nat.succ_le_succ this
      | some r =>
        obtain ⟨st', repl, n⟩ := r
        have hdrop : (cs.drop n).length ≤ fuel := by rw [List.length_drop]; omega
        have h1 := H _ _ _ _ _ _ hstep
        have h2 := ih st' (cs.drop n) hdrop
        simp only [List.length_append, List.length_cons]
        have h3 : (cs.drop n).length = cs.length - n := List.length_drop n cs
        omega

/-- Scanners with pointwise-equal step and update functions agree. -/
theorem rwGo_congr {σ : Type} (step₁ step₂ : σ → Char → List Char → Option (σ × List Char × Nat))
    (upd₁ upd₂ : σ → Char → σ)
    (hs : ∀ st c cs, step₁ st c cs = step₂ st c cs) (hu : ∀ st c, upd₁ st c = upd₂ st c) :
    ∀ (fuel : Nat) (st : σ) (s : List Char),
      rwGo step₁ upd₁ fuel st s = rwGo step₂ upd₂ fuel st s := by
  intro fuel
  induction fuel with
  | zero => intro st s; rfl
  | succ fuel ih =>
    intro st s
    match s with
    | [] => rfl
    | c :: cs =>
      simp only [rwGo, hs st c cs, hu st c]
      cases step₂ st c cs with
      | none => exact congrArg _ (ih _ _)
      | some r =>
        obtain ⟨st', repl, n⟩ := r
        exact congrArg _ (ih _ _)

/-! ### `joinSep`, `consHead` and split lemmas -/

theorem joinSep_filter (q : Char → Bool) (sep : List Char) :
    ∀ l : List (List Char),
      (joinSep sep l).filter q = joinSep (sep.filter q) (l.map (List.filter q))
  | [] => rfl
  | [_] => rfl
  | a :: b :: rest => by
    have ih := joinSep_filter q sep (b :: rest)
    simp only [joinSep, List.map, List.filter_append, ih]

theorem joinSep_length_mono {l₁ l₂ : List (List Char)} {sep₁ sep₂ : List Char}
    (h : List.Forall₂ (fun a b => a.length ≤ b.length) l₁ l₂)
    (hs : sep₁.length ≤ sep₂.length) :
    (joinSep sep₁ l₁).length ≤ (joinSep sep₂ l₂).length := by
  induction h with
  | nil => simp [joinSep]
  | @cons a b l₁' l₂' hab h' ih =>
    cases h' with
    | nil => simpa [joinSep] using hab
    | @cons a' b' l₁'' l₂'' hab' h'' =>
      simp only [joinSep, List.length_append]
      omega

theorem consHead_ne_nil (c : Char) (l : List (List Char)) : consHead c l ≠ [] := by
  cases l <;> simp [consHead]

theorem joinSep_consHead (sep : List Char) (c : Char) {l : List (List Char)} (h : l ≠ []) :
    joinSep sep (consHead c l) = c :: joinSep sep l := by
  cases l with
  | nil => exact absurd rfl h
  | cons p ps => cases ps <;> simp [consHead, joinSep]

theorem splitChGo_ne_nil (ch : Char) : ∀ fuel s, splitChGo ch fuel s ≠ [] := by
  intro fuel
  induction fuel with
  | zero => intro s; simp [splitChGo]
  | succ fuel _ =>
    intro s
    cases s with
    | nil => simp [splitChGo]
    | cons c cs =>
      simp only [splitChGo]
      split
      · simp
      · exact consHead_ne_nil _ _

theorem splitTokGo_ne_nil (tok : List Char) : ∀ fuel s, splitTokGo tok fuel s ≠ [] := by
  intro fuel
  induction fuel with
  | zero => intro s; simp [splitTokGo]
  | succ fuel _ =>
    intro s
    cases s with
    | nil => simp [splitTokGo]
    | cons c cs =>
      simp only [splitTokGo]
      split
      · simp
      · exact consHead_ne_nil _ _

theorem splitInlineGo_ne_nil : ∀ fuel prev s, splitInlineGo fuel prev s ≠ [] := by
  intro fuel
  induction fuel with
  | zero => intro prev s; simp [splitInlineGo]
  | succ fuel _ =>
    intro prev s
    cases s with
    | nil => simp [splitInlineGo]
    | cons c cs =>
      simp only [splitInlineGo]
      split
      · simp
      · exact consHead_ne_nil _ _

/-- Joining a character split with that character restores the input. -/
theorem joinSep_splitChGo (ch : Char) :
    ∀ fuel s, s.length ≤ fuel → joinSep [ch] (splitChGo ch fuel s) = s := by
  intro fuel
  induction fuel with
  | zero =>
    intro s h
    have : s = [] := List.length_eq_zero.mp (Nat.le_zero.mp h)
    subst this; rfl
  | succ fuel ih =>
    intro s h
    cases s with
    | nil => rfl
    | cons c cs =>
      have hcs : cs.length ≤ fuel := by simpa using Nat.le_of_succ_le_succ h
      simp only [splitChGo]
      split
      · next hc =>
        have hrest := ih cs hcs
        cases hsp : splitChGo ch fuel cs with
        | nil => exact absurd hsp (splitChGo_ne_nil ch fuel cs)
        | cons p ps =>
          rw [hsp] at hrest
          subst hc
          simp [joinSep, hrest]
      · next _ =>
        rw [joinSep_consHead _ _ (splitChGo_ne_nil ch fuel cs), ih cs hcs]

/-- Joining a token split with that token restores the input. -/
theorem joinSep_splitTokGo (tok : List Char) (htok : tok ≠ []) :
    ∀ fuel s, s.length ≤ fuel → joinSep tok (splitTokGo tok fuel s) = s := by
  intro fuel
  induction fuel with
  | zero =>
    intro s h
    have : s = [] := List.length_eq_zero.mp (Nat.le_zero.mp h)
    subst this; rfl
  | succ fuel ih =>
    intro s h
    cases s with
    | nil => rfl
    | cons c cs =>
      simp only [splitTokGo]
      split
      · next hc =>
        obtain ⟨u, hu⟩ : tok <+: c :: cs := by
          have := hc.1
          rwa [List.isPrefixOf_iff_prefix] at this
        have hlen1 : 1 ≤ tok.length := by
          cases tok with
          | nil => exact absurd rfl htok
          | cons _ _ => simp
        have hdrop : (c :: cs).drop tok.length = u := by
          rw [← hu, List.drop_left]
        have hulen : u.length ≤ fuel := by
          have : (c :: cs).length = tok.length + u.length := by rw [← hu]; simp
          simp only [List.length_cons] at this h
          omega
        rw [hdrop]
        have hrest := ih u hulen
        cases hsp : splitTokGo tok fuel u with
        | nil => exact absurd hsp (splitTokGo_ne_nil tok fuel u)
        | cons p ps =>
          rw [hsp] at hrest
          simp only [joinSep, hrest]
          simp [← hu]
      · next _ =>
        rw [joinSep_consHead _ _ (splitTokGo_ne_nil tok fuel cs),
          ih cs (by simpa using Nat.le_of_succ_le_succ h)]

/-- Joining the inline-code split with a backtick restores the input. -/
theorem joinSep_splitInlineGo :
    ∀ fuel prev s, s.length ≤ fuel → joinSep [bt] (splitInlineGo fuel prev s) = s := by
  intro fuel
  induction fuel with
  | zero =>
    intro prev s h
    have : s = [] := List.length_eq_zero.mp (Nat.le_zero.mp h)
    subst this; rfl
  | succ fuel ih =>
    intro prev s h
    cases s with
    | nil => rfl
    | cons c cs =>
      have hcs : cs.length ≤ fuel := by simpa using Nat.le_of_succ_le_succ h
      simp only [splitInlineGo]
      split
      · next hc =>
        have hrest := ih (some bt) cs hcs
        cases hsp : splitInlineGo fuel (some bt) cs with
        | nil => exact absurd hsp (splitInlineGo_ne_nil fuel (some bt) cs)
        | cons p ps =>
          rw [hsp] at hrest
          rw [hc.1]
          simp [joinSep, hrest]
      · next _ =>
        rw [joinSep_consHead _ _ (splitInlineGo_ne_nil fuel (some c) cs), ih (some c) cs hcs]

/-- Splitting is fuel-insensitive once the fuel covers the input length. -/
theorem splitChGo_fuel (ch : Char) :
    ∀ f₁ f₂ s, s.length ≤ f₁ → s.length ≤ f₂ → splitChGo ch f₁ s = splitChGo ch f₂ s := by
  intro f₁
  induction f₁ with
  | zero =>
    intro f₂ s h _
    have : s = [] := List.length_eq_zero.mp (Nat.le_zero.mp h)
    subst this
    cases f₂ <;> rfl
  | succ f₁ ih =>
    intro f₂ s h h₂
    cases s with
    | nil => cases f₂ <;> rfl
    | cons c cs =>
      cases f₂ with
      | zero => simp at h₂
      | succ f₂ =>
        have hcs : cs.length ≤ f₁ := by simpa using Nat.le_of_succ_le_succ h
        have hcs₂ : cs.length ≤ f₂ := by simpa using Nat.le_of_succ_le_succ h₂
        simp only [splitChGo]
        rw [ih f₂ cs hcs hcs₂]

/-- A string not containing the split character is a single region. -/
theorem splitChGo_eq_single (ch : Char) :
    ∀ fuel s, s.length ≤ fuel → ch ∉ s → splitChGo ch fuel s = [s] := by
  intro fuel
  induction fuel with
  | zero =>
    intro s h _
    have : s = [] := List.length_eq_zero.mp (Nat.le_zero.mp h)
    subst this; rfl
  | succ fuel ih =>
    intro s h hmem
    cases s with
    | nil => rfl
    | cons c cs =>
      have hc : ¬c = ch := fun hc => hmem (hc ▸ List.mem_cons_self c cs)
      have hcs : ch ∉ cs := fun hm => hmem (List.mem_cons_of_mem c hm)
      simp only [splitChGo, if_neg hc]
      rw [ih cs (by simpa using Nat.le_of_succ_le_succ h) hcs]
      rfl

/-- Splitting `a ++ ch :: r` with `ch ∉ a` yields `a` and the split of `r`. -/
theorem splitChGo_append (ch : Char) :
    ∀ (a : List Char) (fuel : Nat) (r : List Char), (a ++ ch :: r).length ≤ fuel → ch ∉ a →
      splitChGo ch fuel (a ++ ch :: r) = a :: splitCh ch r := by
  intro a
  induction a with
  | nil =>
    intro fuel r h _
    cases fuel with
    | zero => simp at h
    | succ fuel =>
      simp only [List.nil_append, splitChGo, if_pos rfl]
      rw [splitChGo_fuel ch fuel r.length r (by simpa using Nat.le_of_succ_le_succ h)
        (Nat.le_refl _)]
      rfl
  | cons c a' ih =>
    intro fuel r h hmem
    cases fuel with
    | zero => simp at h
    | succ fuel =>
      have hc : ¬c = ch := fun hc => hmem (hc ▸ List.mem_cons_self c a')
      have hmem' : ch ∉ a' := fun hm => hmem (List.mem_cons_of_mem c hm)
      simp only [List.cons_append, splitChGo, if_neg hc, List.append_eq]
      rw [ih fuel r (by simpa using Nat.le_of_succ_le_succ h) hmem']
      rfl

/-- Splitting undoes joining, provided no region contains the separator. -/
theorem splitCh_joinSep (ch : Char) :
    ∀ ls : List (List Char), ls ≠ [] → (∀ l ∈ ls, ch ∉ l) →
      splitCh ch (joinSep [ch] ls) = ls := by
  intro ls
  match ls with
  | [] => intro h _; exact absurd rfl h
  | [a] =>
    intro _ hmem
    exact splitChGo_eq_single ch a.length a (Nat.le_refl _) (hmem a (List.mem_singleton.mpr rfl))
  | a :: b :: t =>
    intro _ hmem
    have ha : ch ∉ a := hmem a (List.mem_cons_self _ _)
    have hrec := splitCh_joinSep ch (b :: t) (by simp)
      (fun l hl => hmem l (List.mem_cons_of_mem a hl))
    have : joinSep [ch] (a :: b :: t) = a ++ ch :: joinSep [ch] (b :: t) := by
      simp [joinSep]
    rw [this, splitCh]
    rw [splitChGo_append ch a _ (joinSep [ch] (b :: t)) (Nat.le_refl _) ha, hrec]

/-- Regions of a character split never contain the split character. -/
theorem splitChGo_not_mem (ch : Char) :
    ∀ fuel s, s.length ≤ fuel → ∀ p ∈ splitChGo ch fuel s, ch ∉ p := by
  intro fuel
  induction fuel with
  | zero =>
    intro s h p hp
    have : s = [] := List.length_eq_zero.mp (Nat.le_zero.mp h)
    subst this
    simp only [splitChGo, List.mem_singleton] at hp
    subst hp; simp
  | succ fuel ih =>
    intro s h p hp
    cases s with
    | nil =>
      simp only [splitChGo, List.mem_singleton] at hp
      subst hp; simp
    | cons c cs =>
      have hcs : cs.length ≤ fuel := by simpa using Nat.le_of_succ_le_succ h
      simp only [splitChGo] at hp
      by_cases hc : c = ch
      · rw [if_pos hc] at hp
        rcases List.mem_cons.mp hp with h1 | h1
        · subst h1; simp
        · exact ih cs hcs p h1
      · rw [if_neg hc] at hp
        cases hsp : splitChGo ch fuel cs with
        | nil => exact absurd hsp (splitChGo_ne_nil ch fuel cs)
        | cons q qs =>
          rw [hsp] at hp
          simp only [consHead] at hp
          rcases List.mem_cons.mp hp with h1 | h1
          · subst h1
            intro hm
            rcases List.mem_cons.mp hm with h2 | h2
            · exact hc h2.symm
            · exact ih cs hcs q (hsp ▸ List.mem_cons_self q qs) h2
          · exact ih cs hcs p (hsp ▸ List.mem_cons_of_mem q h1)

/-! ### `mapIdxFrom` lemmas -/

theorem mapIdxFrom_length {α β : Type} (f : Nat → α → β) :
    ∀ (i : Nat) (l : List α), (mapIdxFrom f i l).length = l.length
  | _, [] => rfl
  | i, _ :: l => by simp [mapIdxFrom, mapIdxFrom_length f (i + 1) l]

theorem mapIdxFrom_congr {α β : Type} {f g : Nat → α → β} :
    ∀ (i : Nat) (l : List α), (∀ j a, i ≤ j → f j a = g j a) →
      mapIdxFrom f i l = mapIdxFrom g i l
  | _, [], _ => rfl
  | i, a :: l, h => by
    simp only [mapIdxFrom, h i a (Nat.le_refl _)]
    rw [mapIdxFrom_congr (i + 1) l fun j a hj => h j a (Nat.le_of_succ_le hj)]

theorem map_mapIdxFrom {α β γ : Type} (g : β → γ) (f : Nat → α → β) :
    ∀ (i : Nat) (l : List α), (mapIdxFrom f i l).map g = mapIdxFrom (fun j a => g (f j a)) i l
  | _, [] => rfl
  | i, a :: l => by simp [mapIdxFrom, map_mapIdxFrom g f (i + 1) l]

theorem forall₂_mapIdxFrom {α : Type} {P : α → α → Prop} {f : Nat → α → α}
    (h : ∀ j a, P a (f j a)) :
    ∀ (i : Nat) (l : List α), List.Forall₂ P l (mapIdxFrom f i l)
  | _, [] => List.Forall₂.nil
  | i, a :: l => List.Forall₂.cons (h i a) (forall₂_mapIdxFrom h (i + 1) l)

theorem forall₂_map_self {α : Type} {P : α → α → Prop} {f : α → α} (h : ∀ a, P a (f a)) :
    ∀ l : List α, List.Forall₂ P l (l.map f)
  | [] => List.Forall₂.nil
  | a :: l => List.Forall₂.cons (h a) (forall₂_map_self h l)

/-! ### Inserted backslashes are the only difference

`nonBS` keeps every character other than a backslash; `eraseBS` deletes all
backslashes.  An escaper that only inserts backslashes preserves `eraseBS`. -/

/-- Keep everything but backslashes. -/
def nonBS : Char → Bool := fun c => !(c == '\\')

/-- Delete every backslash. -/
def eraseBS (s : List Char) : List Char := s.filter nonBS

theorem eraseBS_cons_bs (l : List Char) : eraseBS ('\\' :: l) = eraseBS l := by
  simp [eraseBS, nonBS]

theorem eraseBS_append (l₁ l₂ : List Char) :
    eraseBS (l₁ ++ l₂) = eraseBS l₁ ++ eraseBS l₂ := by simp [eraseBS]

/-- The step of a literal `replaceAll` consumes exactly the token. -/
theorem tokStep_consumed {tok rep : List Char} {st : Unit} {c : Char} {cs : List Char}
    {st' : Unit} {repl : List Char} {n : Nat}
    (h : tokStep tok rep st c cs = some (st', repl, n)) :
    repl = rep ∧ c :: cs.take n = tok ∧ n + 1 = tok.length := by
  cases tok with
  | nil => simp [tokStep] at h
  | cons t ts =>
    simp only [tokStep] at h
    split at h
    · next hcond =>
      obtain ⟨hc, hpre⟩ := hcond
      obtain ⟨h1, h2⟩ := by simpa using h
      refine ⟨h1.symm, ?_, by simp [← h2]⟩
      have hts : ts = cs.take ts.length :=
        List.prefix_iff_eq_take.mp (List.isPrefixOf_iff_prefix.mp hpre)
      rw [← h2, ← hts, hc]
    · exact absurd h (by simp)

theorem tokStep_filter {tok rep : List Char} (hi : eraseBS rep = eraseBS tok) :
    ∀ (st : Unit) (c : Char) (cs : List Char) (st' : Unit) (repl : List Char) (n : Nat),
      tokStep tok rep st c cs = some (st', repl, n) →
      repl.filter nonBS = (c :: cs.take n).filter nonBS := by
  intro st c cs st' repl n h
  obtain ⟨h1, h2, _⟩ := tokStep_consumed h
  rw [h1, h2]
  exact hi

theorem tokStep_length {tok rep : List Char} (hi : tok.length ≤ rep.length) :
    ∀ (st : Unit) (c : Char) (cs : List Char) (st' : Unit) (repl : List Char) (n : Nat),
      tokStep tok rep st c cs = some (st', repl, n) → n + 1 ≤ repl.length := by
  intro st c cs st' repl n h
  obtain ⟨h1, _, h3⟩ := tokStep_consumed h
  rw [h1, h3]
  exact hi

theorem replaceAllTok_eraseBS {tok rep : List Char} (hi : eraseBS rep = eraseBS tok)
    (s : List Char) : eraseBS (replaceAllTok tok rep s) = eraseBS s :=
  rwGo_filter _ _ nonBS (tokStep_filter hi) s.length () s (Nat.le_refl _)

theorem replaceAllTok_length {tok rep : List Char} (hi : tok.length ≤ rep.length)
    (s : List Char) : s.length ≤ (replaceAllTok tok rep s).length :=
  rwGo_length _ _ (tokStep_length hi) s.length () s (Nat.le_refl _)

theorem italicStep_filter (mk : Char) :
    ∀ (st : Option Char × Nat) (c : Char) (cs : List Char) (st' : Option Char × Nat)
      (repl : List Char) (n : Nat),
      italicStep mk st c cs = some (st', repl, n) →
      repl.filter nonBS = (c :: cs.take n).filter nonBS := by
  intro st c cs st' repl n h
  simp only [italicStep] at h
  split at h
  · next hcond =>
    cases cs with
    | nil =>
      obtain ⟨-, h2, -⟩ := by simpa using h
      rw [← h2, hcond.1]
      simp [List.filter, nonBS]
    | cons d ds =>
      dsimp only at h
      by_cases hd : d = mk
      · rw [if_pos hd] at h
        cases ds with
        | nil => simp at h
        | cons e es =>
          dsimp only at h
          by_cases he : e = mk
          · rw [if_pos he] at h
            obtain ⟨-, h2, h3⟩ := by simpa using h
            rw [← h2, ← h3, hcond.1, hd, he]
            split <;> simp [List.filter_cons, nonBS]
          · rw [if_neg he] at h
            simp at h
      · rw [if_neg hd] at h
        obtain ⟨-, h2, h3⟩ := by simpa using h
        rw [← h2, ← h3, hcond.1]
        simp [List.filter_cons, nonBS]
  · exact absurd h (by simp)

theorem italicStep_length (mk : Char) :
    ∀ (st : Option Char × Nat) (c : Char) (cs : List Char) (st' : Option Char × Nat)
      (repl : List Char) (n : Nat),
      italicStep mk st c cs = some (st', repl, n) → n + 1 ≤ repl.length := by
  intro st c cs st' repl n h
  simp only [italicStep] at h
  split at h
  · next _ =>
    cases cs with
    | nil =>
      obtain ⟨-, h2, h3⟩ := by simpa using h
      rw [← h2, ← h3]; simp
    | cons d ds =>
      dsimp only at h
      by_cases hd : d = mk
      · rw [if_pos hd] at h
        cases ds with
        | nil => simp at h
        | cons e es =>
          dsimp only at h
          by_cases he : e = mk
          · rw [if_pos he] at h
            obtain ⟨-, h2, h3⟩ := by simpa using h
            rw [← h2, ← h3]
            split <;> simp
          · rw [if_neg he] at h
            simp at h
      · rw [if_neg hd] at h
        obtain ⟨-, h2, h3⟩ := by simpa using h
        rw [← h2, ← h3]; simp
  · exact absurd h (by simp)

theorem boldStep_filter (mk : Char) :
    ∀ (st : Nat) (c : Char) (cs : List Char) (st' : Nat) (repl : List Char) (n : Nat),
      boldStep mk st c cs = some (st', repl, n) →
      repl.filter nonBS = (c :: cs.take n).filter nonBS := by
  intro st c cs st' repl n h
  simp only [boldStep] at h
  split at h
  · next hc =>
    cases cs with
    | nil => simp at h
    | cons d ds =>
      dsimp only at h
      by_cases hd : d = mk
      · rw [if_pos hd] at h
        cases ds with
        | nil =>
          dsimp only at h
          obtain ⟨-, h2, h3⟩ := by simpa using h
          rw [← h2, ← h3, hc, hd]
          simp [List.filter_cons, nonBS]
        | cons e es =>
          dsimp only at h
          by_cases he : e = mk
          · rw [if_pos he] at h
            obtain ⟨-, h2, h3⟩ := by simpa using h
            rw [← h2, ← h3, hc, hd, he]
            split <;> simp [List.filter_cons, nonBS]
          · rw [if_neg he] at h
            obtain ⟨-, h2, h3⟩ := by simpa using h
            rw [← h2, ← h3, hc, hd]
            simp [List.filter_cons, nonBS]
      · rw [if_neg hd] at h
        simp at h
  · exact absurd h (by simp)

theorem boldStep_length (mk : Char) :
    ∀ (st : Nat) (c : Char) (cs : List Char) (st' : Nat) (repl : List Char) (n : Nat),
      boldStep mk st c cs = some (st', repl, n) → n + 1 ≤ repl.length := by
  intro st c cs st' repl n h
  simp only [boldStep] at h
  split at h
  · next _ =>
    cases cs with
    | nil => simp at h
    | cons d ds =>
      dsimp only at h
      by_cases hd : d = mk
      · rw [if_pos hd] at h
        cases ds with
        | nil =>
          dsimp only at h
          obtain ⟨-, h2, h3⟩ := by simpa using h
          rw [← h2, ← h3]; simp
        | cons e es =>
          dsimp only at h
          by_cases he : e = mk
          · rw [if_pos he] at h
            obtain ⟨-, h2, h3⟩ := by simpa using h
            rw [← h2, ← h3]
            split <;> simp
          · rw [if_neg he] at h
            obtain ⟨-, h2, h3⟩ := by simpa using h
            rw [← h2, ← h3]; simp
      · rw [if_neg hd] at h
        simp at h
  · exact absurd h (by simp)

theorem inlineCodeStep_filter :
    ∀ (st : Option Char) (c : Char) (cs : List Char) (st' : Option Char)
      (repl : List Char) (n : Nat),
      inlineCodeStep st c cs = some (st', repl, n) →
      repl.filter nonBS = (c :: cs.take n).filter nonBS := by
  intro st c cs st' repl n h
  simp only [inlineCodeStep] at h
  split at h
  · next hcond =>
    cases cs with
    | nil =>
      obtain ⟨-, h2, h3⟩ := by simpa using h
      rw [← h2, ← h3, hcond.1]
      simp [List.filter_cons, nonBS]
    | cons d ds =>
      dsimp only at h
      by_cases hd : d = bt
      · rw [if_pos hd] at h
        cases ds with
        | nil =>
          dsimp only at h
          obtain ⟨-, h2, h3⟩ := by simpa using h
          rw [← h2, ← h3, hcond.1, hd]
          simp [List.filter_cons, nonBS]
        | cons e es =>
          dsimp only at h
          by_cases he : e = bt
          · rw [if_pos he] at h
            simp at h
          · rw [if_neg he] at h
            obtain ⟨-, h2, h3⟩ := by simpa using h
            rw [← h2, ← h3, hcond.1, hd]
            simp [List.filter_cons, nonBS]
      · rw [if_neg hd] at h
        obtain ⟨-, h2, h3⟩ := by simpa using h
        rw [← h2, ← h3, hcond.1]
        simp [List.filter_cons, nonBS]
  · exact absurd h (by simp)

theorem inlineCodeStep_length :
    ∀ (st : Option Char) (c : Char) (cs : List Char) (st' : Option Char)
      (repl : List Char) (n : Nat),
      inlineCodeStep st c cs = some (st', repl, n) → n + 1 ≤ repl.length := by
  intro st c cs st' repl n h
  simp only [inlineCodeStep] at h
  split at h
  · next _ =>
    cases cs with
    | nil =>
      obtain ⟨-, h2, h3⟩ := by simpa using h
      rw [← h2, ← h3]; simp
    | cons d ds =>
      dsimp only at h
      by_cases hd : d = bt
      · rw [if_pos hd] at h
        cases ds with
        | nil =>
          dsimp only at h
          obtain ⟨-, h2, h3⟩ := by simpa using h
          rw [← h2, ← h3]; simp
        | cons e es =>
          dsimp only at h
          by_cases he : e = bt
          · rw [if_pos he] at h
            simp at h
          · rw [if_neg he] at h
            obtain ⟨-, h2, h3⟩ := by simpa using h
            rw [← h2, ← h3]; simp
      · rw [if_neg hd] at h
        obtain ⟨-, h2, h3⟩ := by simpa using h
        rw [← h2, ← h3]; simp
  · exact absurd h (by simp)

theorem maskedStep_filter :
    ∀ (st : Unit) (c : Char) (cs : List Char) (st' : Unit) (repl : List Char) (n : Nat),
      maskedStep st c cs = some (st', repl, n) →
      repl.filter nonBS = (c :: cs.take n).filter nonBS := by
  intro st c cs st' repl n h
  simp only [maskedStep] at h
  split at h
  · next _ =>
    cases hml : mlMatch cs with
    | none => rw [hml] at h; simp at h
    | some m =>
      rw [hml] at h
      dsimp only at h
      simp only [Option.some.injEq, Prod.mk.injEq] at h
      obtain ⟨-, h2, h3⟩ := h
      subst h3
      rw [← h2]
      simp [List.filter_cons, nonBS]
  · exact absurd h (by simp)

theorem takeWhile_length_le (p : Char → Bool) :
    ∀ l : List Char, (l.takeWhile p).length ≤ l.length
  | [] => by simp
  | a :: l => by
    simp only [List.takeWhile]
    cases p a
    · simp
    · simpa using Nat.succ_le_succ (takeWhile_length_le p l)

/-- A masked-link match never claims more characters than remain. -/
theorem mlMatch_le {cs : List Char} {n : Nat} (h : mlMatch cs = some n) : n ≤ cs.length := by
  have htw := takeWhile_length_le (fun c => !(c == '\n')) cs
  simp only [mlMatch] at h
  set w := cs.takeWhile fun c => !(c == '\n') with hw
  cases hj : ((List.range w.length).filter (mlGoodJ w)).getLast? with
  | none => rw [hj] at h; simp at h
  | some j =>
    rw [hj] at h
    dsimp only at h
    cases hm : ((List.range w.length).filter fun m =>
        decide (j + 3 ≤ m) && (w.get? m == some ')')).getLast? with
    | none => rw [hm] at h; simp at h
    | some m =>
      rw [hm] at h
      dsimp only at h
      obtain rfl : m + 1 = n := by simpa using h
      have hmem := List.mem_of_mem_getLast? hm
      have hlt : m < w.length := List.mem_range.mp (List.mem_filter.mp hmem).1
      omega

theorem maskedStep_length :
    ∀ (st : Unit) (c : Char) (cs : List Char) (st' : Unit) (repl : List Char) (n : Nat),
      maskedStep st c cs = some (st', repl, n) → n + 1 ≤ repl.length := by
  intro st c cs st' repl n h
  simp only [maskedStep] at h
  split at h
  · next _ =>
    cases hml : mlMatch cs with
    | none => rw [hml] at h; simp at h
    | some m =>
      rw [hml] at h
      dsimp only at h
      simp only [Option.some.injEq, Prod.mk.injEq] at h
      obtain ⟨-, h2, h3⟩ := h
      subst h3
      have hle := mlMatch_le hml
      rw [← h2]
      simp only [List.length_cons, List.length_take]
      omega
  · exact absurd h (by simp)

/-! ### Per-escaper preservation lemmas -/

theorem eraseBS_escapeCodeBlock (s : List Char) :
    eraseBS (escapeCodeBlock s) = eraseBS s := replaceAllTok_eraseBS (by decide) s

theorem eraseBS_escapeStrikethrough (s : List Char) :
    eraseBS (escapeStrikethrough s) = eraseBS s := replaceAllTok_eraseBS (by decide) s

theorem eraseBS_escapeSpoiler (s : List Char) :
    eraseBS (escapeSpoiler s) = eraseBS s := replaceAllTok_eraseBS (by decide) s

theorem eraseBS_escapeEscape (s : List Char) :
    eraseBS (escapeEscape s) = eraseBS s := replaceAllTok_eraseBS (by decide) s

theorem eraseBS_italicPass (mk : Char) (s : List Char) :
    eraseBS (italicPass mk s) = eraseBS s :=
  rwGo_filter _ _ nonBS (italicStep_filter mk) _ _ _ (Nat.le_refl _)

theorem eraseBS_escapeItalic (s : List Char) : eraseBS (escapeItalic s) = eraseBS s := by
  rw [escapeItalic, eraseBS_italicPass, eraseBS_italicPass]

theorem eraseBS_escapeBold (s : List Char) : eraseBS (escapeBold s) = eraseBS s :=
  rwGo_filter _ _ nonBS (boldStep_filter '*') _ _ _ (Nat.le_refl _)

theorem eraseBS_escapeUnderline (s : List Char) : eraseBS (escapeUnderline s) = eraseBS s :=
  rwGo_filter _ _ nonBS (boldStep_filter '_') _ _ _ (Nat.le_refl _)

theorem eraseBS_escapeInlineCode (s : List Char) : eraseBS (escapeInlineCode s) = eraseBS s :=
  rwGo_filter _ _ nonBS inlineCodeStep_filter _ _ _ (Nat.le_refl _)

theorem eraseBS_escapeMaskedLink (s : List Char) : eraseBS (escapeMaskedLink s) = eraseBS s :=
  rwGo_filter _ _ nonBS maskedStep_filter _ _ _ (Nat.le_refl _)

theorem length_escapeCodeBlock (s : List Char) : s.length ≤ (escapeCodeBlock s).length :=
  replaceAllTok_length (by decide) s

theorem length_escapeStrikethrough (s : List Char) :
    s.length ≤ (escapeStrikethrough s).length := replaceAllTok_length (by decide) s

theorem length_escapeSpoiler (s : List Char) : s.length ≤ (escapeSpoiler s).length :=
  replaceAllTok_length (by decide) s

theorem length_escapeEscape (s : List Char) : s.length ≤ (escapeEscape s).length :=
  replaceAllTok_length (by decide) s

theorem length_italicPass (mk : Char) (s : List Char) : s.length ≤ (italicPass mk s).length :=
  rwGo_length _ _ (italicStep_length mk) _ _ _ (Nat.le_refl _)

theorem length_escapeItalic (s : List Char) : s.length ≤ (escapeItalic s).length :=
  Nat.le_trans (length_italicPass '*' s) (length_italicPass '_' (italicPass '*' s))

theorem length_escapeBold (s : List Char) : s.length ≤ (escapeBold s).length :=
  rwGo_length _ _ (boldStep_length '*') _ _ _ (Nat.le_refl _)

theorem length_escapeUnderline (s : List Char) : s.length ≤ (escapeUnderline s).length :=
  rwGo_length _ _ (boldStep_length '_') _ _ _ (Nat.le_refl _)

theorem length_escapeInlineCode (s : List Char) : s.length ≤ (escapeInlineCode s).length :=
  rwGo_length _ _ inlineCodeStep_length _ _ _ (Nat.le_refl _)

theorem length_escapeMaskedLink (s : List Char) : s.length ≤ (escapeMaskedLink s).length :=
  rwGo_length _ _ maskedStep_length _ _ _ (Nat.le_refl _)

/-! ### Per-line lemmas for the anchored escapers -/

theorem eraseBS_headingLine (l : List Char) : eraseBS (headingLine l) = eraseBS l := by
  unfold headingLine
  split
  · split
    · rw [eraseBS_append, eraseBS_cons_bs, ← eraseBS_append, List.take_append_drop]
    · rfl
  · split
    · exact eraseBS_cons_bs l
    · rfl

theorem eraseBS_numberedLine (l : List Char) : eraseBS (numberedLine l) = eraseBS l := by
  unfold numberedLine
  dsimp only
  split
  · rw [eraseBS_append, eraseBS_cons_bs, ← eraseBS_append, List.take_append_drop]
  · rfl

theorem length_headingLine (l : List Char) : l.length ≤ (headingLine l).length := by
  unfold headingLine
  split
  · split
    · simp only [List.length_append, List.length_cons, List.length_take, List.length_drop]
      omega
    · exact Nat.le_refl _
  · split
    · simp
    · exact Nat.le_refl _

theorem length_numberedLine (l : List Char) : l.length ≤ (numberedLine l).length := by
  unfold numberedLine
  dsimp only
  split
  · simp only [List.length_append, List.length_cons, List.length_take, List.length_drop]
    omega
  · exact Nat.le_refl _

theorem length_bulletedLine (l : List Char) : l.length ≤ (bulletedLine l).length := by
  unfold bulletedLine
  dsimp only
  split
  · exact Nat.le_refl _
  · next m rest hdr =>
    have hlen : l.length - countLeading (fun c => c == ' ') l = rest.length + 1 := by
      have := List.length_drop (countLeading (fun c => c == ' ') l) l
      rw [hdr] at this
      simpa using this.symm
    split
    · split
      · simp only [List.length_append, List.length_cons, List.length_take]
        omega
      · exact Nat.le_refl _
    · exact Nat.le_refl _

theorem perLine_eraseBS {f : List Char → List Char} (hf : ∀ l, eraseBS (f l) = eraseBS l)
    (s : List Char) : eraseBS (perLine f s) = eraseBS s := by
  unfold perLine
  have h1 : eraseBS (joinSep ['\n'] ((splitCh '\n' s).map f)) =
      joinSep ['\n'] (((splitCh '\n' s).map f).map eraseBS) := by
    have := joinSep_filter nonBS ['\n'] ((splitCh '\n' s).map f)
    simpa [eraseBS] using this
  have h2 : eraseBS (joinSep ['\n'] (splitCh '\n' s)) =
      joinSep ['\n'] ((splitCh '\n' s).map eraseBS) := by
    have := joinSep_filter nonBS ['\n'] (splitCh '\n' s)
    simpa [eraseBS] using this
  have h3 : joinSep ['\n'] (splitCh '\n' s) = s :=
    joinSep_splitChGo '\n' s.length s (Nat.le_refl _)
  rw [h1, List.map_map, show eraseBS ∘ f = eraseBS from funext hf, ← h2, h3]

theorem perLine_length {f : List Char → List Char} (hf : ∀ l, l.length ≤ (f l).length)
    (s : List Char) : s.length ≤ (perLine f s).length := by
  unfold perLine
  have h3 : joinSep ['\n'] (splitCh '\n' s) = s :=
    joinSep_splitChGo '\n' s.length s (Nat.le_refl _)
  conv_lhs => rw [← h3]
  exact joinSep_length_mono (forall₂_map_self hf _) (Nat.le_refl _)

theorem eraseBS_escapeHeading (s : List Char) : eraseBS (escapeHeading s) = eraseBS s :=
  perLine_eraseBS eraseBS_headingLine s

theorem eraseBS_escapeNumberedList (s : List Char) :
    eraseBS (escapeNumberedList s) = eraseBS s := perLine_eraseBS eraseBS_numberedLine s

theorem length_escapeHeading (s : List Char) : s.length ≤ (escapeHeading s).length :=
  perLine_length length_headingLine s

theorem length_escapeBulletedList (s : List Char) :
    s.length ≤ (escapeBulletedList s).length := perLine_length length_bulletedLine s

theorem length_escapeNumberedList (s : List Char) :
    s.length ≤ (escapeNumberedList s).length := perLine_length length_numberedLine s

/-! ### Composer-level preservation -/

theorem eraseBS_ite (b : Bool) (f : List Char → List Char)
    (hf : ∀ u, eraseBS (f u) = eraseBS u) (t : List Char) :
    eraseBS (if b then f t else t) = eraseBS t := by
  cases b
  · rfl
  · exact hf t

theorem length_ite (b : Bool) (f : List Char → List Char)
    (hf : ∀ u, u.length ≤ (f u).length) (t : List Char) :
    t.length ≤ (if b then f t else t).length := by
  cases b
  · exact Nat.le_refl _
  · exact hf t

theorem mapIdxFrom_eq_map {α β : Type} (g : α → β) :
    ∀ (i : Nat) (l : List α), mapIdxFrom (fun _ a => g a) i l = l.map g
  | _, [] => rfl
  | i, a :: l => by simp [mapIdxFrom, mapIdxFrom_eq_map g (i + 1) l]

theorem applyAll_eraseBS (o : MDOpts) (hb : o.bulletedList = false) (t : List Char) :
    eraseBS (applyAll o t) = eraseBS t := by
  unfold applyAll
  dsimp only
  rw [hb]
  simp only [Bool.false_eq_true, if_false]
  rw [eraseBS_ite _ _ eraseBS_escapeMaskedLink,
    eraseBS_ite _ _ eraseBS_escapeNumberedList,
    eraseBS_ite _ _ eraseBS_escapeHeading,
    eraseBS_ite _ _ eraseBS_escapeSpoiler,
    eraseBS_ite _ _ eraseBS_escapeStrikethrough,
    eraseBS_ite _ _ eraseBS_escapeUnderline,
    eraseBS_ite _ _ eraseBS_escapeBold,
    eraseBS_ite _ _ eraseBS_escapeItalic,
    eraseBS_ite _ _ eraseBS_escapeCodeBlock,
    eraseBS_ite _ _ eraseBS_escapeInlineCode,
    eraseBS_ite _ _ eraseBS_escapeEscape]

theorem applyAll_length (o : MDOpts) (t : List Char) : t.length ≤ (applyAll o t).length := by
  unfold applyAll
  dsimp only
  refine Nat.le_trans ?_ (length_ite o.maskedLink _ length_escapeMaskedLink _)
  refine Nat.le_trans ?_ (length_ite o.numberedList _ length_escapeNumberedList _)
  refine Nat.le_trans ?_ (length_ite o.bulletedList _ length_escapeBulletedList _)
  refine Nat.le_trans ?_ (length_ite o.heading _ length_escapeHeading _)
  refine Nat.le_trans ?_ (length_ite o.spoiler _ length_escapeSpoiler _)
  refine Nat.le_trans ?_ (length_ite o.strikethrough _ length_escapeStrikethrough _)
  refine Nat.le_trans ?_ (length_ite o.underline _ length_escapeUnderline _)
  refine Nat.le_trans ?_ (length_ite o.bold _ length_escapeBold _)
  refine Nat.le_trans ?_ (length_ite o.italic _ length_escapeItalic _)
  refine Nat.le_trans ?_ (length_ite o.codeBlock _ length_escapeCodeBlock _)
  refine Nat.le_trans ?_ (length_ite o.inlineCode _ length_escapeInlineCode _)
  exact length_ite o.escape _ length_escapeEscape t

theorem escapeMarkdownInl_eraseBS (o : MDOpts) (hb : o.bulletedList = false) (t : List Char) :
    eraseBS (escapeMarkdownInl o t) = eraseBS t := by
  have hjf : ∀ (sep : List Char) (L : List (List Char)),
      eraseBS (joinSep sep L) = joinSep (eraseBS sep) (L.map eraseBS) := fun sep L => by
    simpa [eraseBS] using joinSep_filter nonBS sep L
  unfold escapeMarkdownInl
  split
  · dsimp only
    rw [hjf]
    have hsep : eraseBS (if o.inlineCode then ['\\', bt] else [bt]) = [bt] := by
      cases o.inlineCode <;> rfl
    rw [hsep]
    have hmap : (mapWithIdx
        (fun i s => if i % 2 = 1 ∧ i ≠ (splitInline t).length - 1 then s
          else applyAll (inlRecOpts o) s) (splitInline t)).map eraseBS =
        (splitInline t).map eraseBS := by
      rw [mapWithIdx, map_mapIdxFrom, mapIdxFrom_congr 0 (splitInline t)
        (fun j a _ => ?_), mapIdxFrom_eq_map]
      by_cases hP : j % 2 = 1 ∧ j ≠ (splitInline t).length - 1
      · rw [if_pos hP]
      · rw [if_neg hP]
        exact applyAll_eraseBS (inlRecOpts o) hb a
    rw [hmap]
    have hback : joinSep [bt] ((splitInline t).map eraseBS) =
        eraseBS (joinSep [bt] (splitInline t)) := by
      rw [hjf]
      rfl
    have hjoin : joinSep [bt] (splitInline t) = t :=
      joinSep_splitInlineGo t.length none t (Nat.le_refl _)
    rw [hback, hjoin]
  · exact applyAll_eraseBS o hb t

theorem escapeMarkdownInl_length (o : MDOpts) (t : List Char) :
    t.length ≤ (escapeMarkdownInl o t).length := by
  unfold escapeMarkdownInl
  split
  · dsimp only
    have hjoin : joinSep [bt] (splitInline t) = t :=
      joinSep_splitInlineGo t.length none t (Nat.le_refl _)
    conv_lhs => rw [← hjoin]
    refine joinSep_length_mono ?_ ?_
    · exact forall₂_mapIdxFrom (fun j a => by
        by_cases hP : j % 2 = 1 ∧ j ≠ (splitInline t).length - 1
        · rw [if_pos hP]
        · rw [if_neg hP]
          exact applyAll_length (inlRecOpts o) a) 0 (splitInline t)
    · cases o.inlineCode <;> simp
  · exact applyAll_length o t

theorem escapeMarkdown_eraseBS (o : MDOpts) (hb : o.bulletedList = false) (t : List Char) :
    eraseBS (escapeMarkdown o t) = eraseBS t := by
  have hjf : ∀ (sep : List Char) (L : List (List Char)),
      eraseBS (joinSep sep L) = joinSep (eraseBS sep) (L.map eraseBS) := fun sep L => by
    simpa [eraseBS] using joinSep_filter nonBS sep L
  unfold escapeMarkdown
  split
  · dsimp only
    rw [hjf]
    have hsep : eraseBS (if o.codeBlock then escFence else fence) = fence := by
      cases o.codeBlock <;> rfl
    rw [hsep]
    have hmap : (mapWithIdx
        (fun i s => if i % 2 = 1 ∧ i ≠ (splitTok fence t).length - 1 then s
          else escapeMarkdownInl (cbRecOpts o) s) (splitTok fence t)).map eraseBS =
        (splitTok fence t).map eraseBS := by
      rw [mapWithIdx, map_mapIdxFrom, mapIdxFrom_congr 0 (splitTok fence t)
        (fun j a _ => ?_), mapIdxFrom_eq_map]
      by_cases hP : j % 2 = 1 ∧ j ≠ (splitTok fence t).length - 1
      · rw [if_pos hP]
      · rw [if_neg hP]
        exact escapeMarkdownInl_eraseBS (cbRecOpts o) hb a
    rw [hmap]
    have hback : joinSep fence ((splitTok fence t).map eraseBS) =
        eraseBS (joinSep fence (splitTok fence t)) := by
      rw [hjf]
      rfl
    have hjoin : joinSep fence (splitTok fence t) = t :=
      joinSep_splitTokGo fence (by decide) t.length t (Nat.le_refl _)
    rw [hback, hjoin]
  · exact escapeMarkdownInl_eraseBS o hb t

theorem escapeMarkdown_length (o : MDOpts) (t : List Char) :
    t.length ≤ (escapeMarkdown o t).length := by
  unfold escapeMarkdown
  split
  · dsimp only
    have hjoin : joinSep fence (splitTok fence t) = t :=
      joinSep_splitTokGo fence (by decide) t.length t (Nat.le_refl _)
    conv_lhs => rw [← hjoin]
    refine joinSep_length_mono ?_ ?_
    · exact forall₂_mapIdxFrom (fun j a => by
        by_cases hP : j % 2 = 1 ∧ j ≠ (splitTok fence t).length - 1
        · rw [if_pos hP]
        · rw [if_neg hP]
          exact escapeMarkdownInl_length (cbRecOpts o) a) 0 (splitTok fence t)
    · cases o.codeBlock <;> simp [fence, escFence]
  · exact escapeMarkdownInl_length o t

/-! ### `countLeading` toolkit and idempotence of the line escapers -/

theorem countLeading_cons_false {p : Char → Bool} {c : Char} (h : p c = false)
    (l : List Char) : countLeading p (c :: l) = 0 := by
  simp [countLeading, h]

theorem countLeading_le_length (p : Char → Bool) :
    ∀ l : List Char, countLeading p l ≤ l.length
  | [] => Nat.le_refl _
  | c :: l => by
    simp only [countLeading]
    cases p c
    · simp
    · simpa using Nat.succ_le_succ (countLeading_le_length p l)

theorem countLeading_append_full {p : Char → Bool} :
    ∀ {A : List Char}, (∀ a ∈ A, p a = true) →
      ∀ B, countLeading p (A ++ B) = A.length + countLeading p B := by
  intro A
  induction A with
  | nil => intro _ B; simp
  | cons a A ih =>
    intro hA B
    have ha : p a = true := hA a (List.mem_cons_self _ _)
    have hrec := ih (fun x hx => hA x (List.mem_cons_of_mem a hx)) B
    simp only [List.cons_append, countLeading, ha, if_true, List.length_cons, List.append_eq]
    simp only [List.append_eq] at hrec
    omega

theorem countLeading_zero_of_head {p : Char → Bool} {B : List Char}
    (h : ∀ c, B.head? = some c → p c = false) : countLeading p B = 0 := by
  cases B with
  | nil => rfl
  | cons b B => exact countLeading_cons_false (h b rfl) B

/-- `countLeading` over an all-`p` prefix followed by a non-`p` head. -/
theorem countLeading_exact {p : Char → Bool} {S B : List Char}
    (hS : ∀ a ∈ S, p a = true) (hB : ∀ c, B.head? = some c → p c = false) :
    countLeading p (S ++ B) = S.length := by
  rw [countLeading_append_full hS B, countLeading_zero_of_head hB]
  omega

theorem take_countLeading_all (p : Char → Bool) :
    ∀ l : List Char, ∀ a ∈ l.take (countLeading p l), p a = true := by
  intro l
  induction l with
  | nil => simp
  | cons c l ih =>
    simp only [countLeading]
    cases hp : p c
    · simp
    · intro a ha
      simp only [List.take_succ_cons] at ha
      rcases List.mem_cons.mp ha with h1 | h1
      · rw [h1]; exact hp
      · exact ih a h1

theorem drop_len_append {A : List Char} (B : List Char) {n : Nat} (h : A.length = n) :
    (A ++ B).drop n = B := by
  subst h
  exact List.drop_left A B

theorem marker_ne_space {m : Char} (h : m = '*' ∨ m = '-') : (m == ' ') = false := by
  rcases h with h | h <;> subst h <;> decide

theorem isDigit_ne_space {c : Char} (h : c.isDigit = true) : (c == ' ') = false := by
  cases hc : c == ' '
  · rfl
  · have : c = ' ' := by simpa using hc
    subst this
    exact absurd h (by decide)

/-- The numbered-list line rewrite leaves a non-matching line unchanged. -/
theorem numberedLine_eq_of_not {l : List Char}
    (h : ¬(1 ≤ countLeading Char.isDigit (l.drop (countLeading (fun c => c == ' ') l)) ∧
      (l.drop (countLeading (fun c => c == ' ') l +
        countLeading Char.isDigit (l.drop (countLeading (fun c => c == ' ') l)))).head? =
        some '.')) : numberedLine l = l := by
  unfold numberedLine
  rw [if_neg h]

theorem numberedLine_idem (l : List Char) : numberedLine (numberedLine l) = numberedLine l := by
  by_cases hC : 1 ≤ countLeading Char.isDigit
        (l.drop (countLeading (fun c => c == ' ') l)) ∧
      (l.drop (countLeading (fun c => c == ' ') l +
        countLeading Char.isDigit (l.drop (countLeading (fun c => c == ' ') l)))).head? =
        some '.'
  · set k := countLeading (fun c => c == ' ') l with hk
    set d := countLeading Char.isDigit (l.drop k) with hd
    have ho : numberedLine l = l.take (k + d) ++ '\\' :: l.drop (k + d) := by
      unfold numberedLine
      rw [if_pos hC]
    obtain ⟨R, hR⟩ : ∃ R, l.drop (k + d) = '.' :: R := by
      cases hdr : l.drop (k + d) with
      | nil => rw [hdr] at hC; simp at hC
      | cons x xs =>
        rw [hdr] at hC
        obtain ⟨-, h2⟩ := hC
        simp only [List.head?, Option.some.injEq] at h2
        exact ⟨xs, by rw [h2]⟩
    have hkd_lt : k + d < l.length := by
      have hld := List.length_drop (k + d) l
      rw [hR] at hld
      simp only [List.length_cons] at hld
      omega
    have hS_all : ∀ a ∈ l.take k, (fun c => c == ' ') a = true := take_countLeading_all _ l
    have hD_all : ∀ a ∈ (l.drop k).take d, Char.isDigit a = true :=
      take_countLeading_all Char.isDigit (l.drop k)
    have hSlen : (l.take k).length = k := by
      rw [List.length_take]
      omega
    have hDlen : ((l.drop k).take d).length = d := by
      rw [List.length_take, List.length_drop]
      omega
    have hsplit : l.take (k + d) = l.take k ++ (l.drop k).take d := List.take_add l k d
    obtain ⟨e, D', hD⟩ : ∃ e D', (l.drop k).take d = e :: D' := by
      cases hdt : (l.drop k).take d with
      | nil =>
        exfalso
        have := congrArg List.length hdt
        rw [hDlen] at this
        simp only [List.length_nil] at this
        omega
      | cons e D' => exact ⟨e, D', rfl⟩
    have he : Char.isDigit e = true := hD_all e (by rw [hD]; exact List.mem_cons_self _ _)
    have hk' : countLeading (fun c => c == ' ') (numberedLine l) = k := by
      rw [ho, hsplit, List.append_assoc]
      have hB : ∀ c, ((l.drop k).take d ++ '\\' :: l.drop (k + d)).head? = some c →
          (c == ' ') = false := by
        intro c hc
        rw [hD] at hc
        simp only [List.cons_append, List.head?, Option.some.injEq] at hc
        rw [← hc]
        exact isDigit_ne_space he
      rw [countLeading_exact hS_all hB, hSlen]
    have hdropk : (numberedLine l).drop k = (l.drop k).take d ++ '\\' :: l.drop (k + d) := by
      rw [ho, hsplit, List.append_assoc]
      exact drop_len_append _ hSlen
    have hd' : countLeading Char.isDigit ((numberedLine l).drop k) = d := by
      rw [hdropk]
      have hB : ∀ c, ('\\' :: l.drop (k + d)).head? = some c → Char.isDigit c = false := by
        intro c hc
        simp only [List.head?, Option.some.injEq] at hc
        rw [← hc]
        decide
      rw [countLeading_exact hD_all hB, hDlen]
    have hdropkd : ((numberedLine l).drop (k + d)).head? = some '\\' := by
      have hkdlen : (l.take (k + d)).length = k + d := by
        rw [List.length_take]
        omega
      have hx : (numberedLine l).drop (k + d) = '\\' :: l.drop (k + d) := by
        rw [ho]
        exact drop_len_append _ hkdlen
      rw [hx]
      rfl
    refine numberedLine_eq_of_not ?_
    rw [hk', hd']
    intro hC2
    have h2 := hC2.2
    rw [hdropkd] at h2
    simp at h2
  · have ho : numberedLine l = l := numberedLine_eq_of_not hC
    rw [ho, ho]

/-- The bulleted-list line rewrite leaves a line whose first non-space
character is not a list marker unchanged. -/
theorem bulletedLine_eq_of_head_notmark {l : List Char} {c : Char} {cs : List Char}
    (h : l.drop (countLeading (fun x => x == ' ') l) = c :: cs)
    (hc : ¬(c = '*' ∨ c = '-')) : bulletedLine l = l := by
  unfold bulletedLine
  dsimp only
  rw [h]
  dsimp only
  rw [if_neg hc]

theorem bulletedLine_idem (l : List Char) : bulletedLine (bulletedLine l) = bulletedLine l := by
  cases hdr : l.drop (countLeading (fun c => c == ' ') l) with
  | nil =>
    have ho : bulletedLine l = l := by
      unfold bulletedLine
      dsimp only
      rw [hdr]
    rw [ho, ho]
  | cons m rest =>
    by_cases hm : m = '*' ∨ m = '-'
    · by_cases hj : 1 ≤ countLeading (fun c => c == ' ') rest
      · set k := countLeading (fun c => c == ' ') l with hk
        have ho : bulletedLine l = l.take k ++ '\\' :: '-' :: rest := by
          unfold bulletedLine
          dsimp only
          rw [hdr]
          dsimp only
          rw [if_pos hm, if_pos hj]
        have hklt : k < l.length := by
          have hld := List.length_drop k l
          rw [hdr] at hld
          simp only [List.length_cons] at hld
          omega
        have hSlen : (l.take k).length = k := by
          rw [List.length_take]
          omega
        have hk' : countLeading (fun c => c == ' ') (bulletedLine l) = k := by
          rw [ho]
          have hB : ∀ c, ('\\' :: '-' :: rest).head? = some c → (c == ' ') = false := by
            intro c hc
            simp only [List.head?, Option.some.injEq] at hc
            rw [← hc]
            decide
          rw [countLeading_exact (take_countLeading_all _ l) hB, hSlen]
        have hdropk : (bulletedLine l).drop (countLeading (fun c => c == ' ')
            (bulletedLine l)) = '\\' :: '-' :: rest := by
          rw [hk', ho]
          exact drop_len_append _ hSlen
        exact bulletedLine_eq_of_head_notmark hdropk (by decide)
      · have ho : bulletedLine l = l := by
          unfold bulletedLine
          dsimp only
          rw [hdr]
          dsimp only
          rw [if_pos hm, if_neg hj]
        rw [ho, ho]
    · have ho : bulletedLine l = l := bulletedLine_eq_of_head_notmark hdr hm
      rw [ho, ho]

/-! ### Idempotence of `headingLine` -/

theorem headingLine_none_neg {l : List Char} (h1 : bulletPre l = none)
    (h2 : headingAt l = false) : headingLine l = l := by
  unfold headingLine
  rw [h1]
  dsimp only
  rw [h2]
  simp

theorem headingLine_none_pos {l : List Char} (h1 : bulletPre l = none)
    (h2 : headingAt l = true) : headingLine l = '\\' :: l := by
  unfold headingLine
  rw [h1]
  dsimp only
  rw [h2]
  simp

theorem headingLine_some_neg {l : List Char} {n : Nat} (h1 : bulletPre l = some n)
    (h2 : headingAt (l.drop n) = false) : headingLine l = l := by
  unfold headingLine
  rw [h1]
  dsimp only
  rw [h2]
  simp

theorem headingLine_some_pos {l : List Char} {n : Nat} (h1 : bulletPre l = some n)
    (h2 : headingAt (l.drop n) = true) :
    headingLine l = l.take n ++ '\\' :: l.drop n := by
  unfold headingLine
  rw [h1]
  dsimp only
  rw [h2]
  simp

theorem headingAt_cons_bs (H : List Char) : headingAt ('\\' :: H) = false := by
  unfold headingAt
  dsimp only
  rw [countLeading_cons_false (by decide)]
  simp

theorem headingAt_ne_nil {H : List Char} (h : headingAt H = true) : H ≠ [] := by
  intro he
  subst he
  exact absurd h (by decide)

theorem bulletPre_some {l : List Char} {n : Nat} (h : bulletPre l = some n) :
    ∃ m rest, countLeading (fun c => c == ' ') l ≤ 2 ∧
      l.drop (countLeading (fun c => c == ' ') l) = m :: rest ∧ (m = '*' ∨ m = '-') ∧
      1 ≤ countLeading (fun c => c == ' ') rest ∧
      n = countLeading (fun c => c == ' ') l + 1 + countLeading (fun c => c == ' ') rest := by
  unfold bulletPre at h
  dsimp only at h
  split at h
  · next hk2 =>
    cases hdr : l.drop (countLeading (fun c => c == ' ') l) with
    | nil => rw [hdr] at h; simp at h
    | cons m rest =>
      rw [hdr] at h
      dsimp only at h
      split at h
      · next hm =>
        split at h
        · next hj =>
          refine ⟨m, rest, hk2, rfl, hm, hj, ?_⟩
          simpa using h.symm
        · simp at h
      · simp at h
  · simp at h

/-- Recomputing `bulletPre` on a rewritten bullet line with a backslash
inserted after its marker-and-spaces prefix. -/
theorem bulletPre_build {S T H : List Char} {m : Char}
    (hS : ∀ a ∈ S, (a == ' ') = true) (hk2 : S.length ≤ 2) (hm : m = '*' ∨ m = '-')
    (hT : ∀ a ∈ T, (a == ' ') = true) (hT1 : 1 ≤ T.length) :
    bulletPre (S ++ m :: (T ++ '\\' :: H)) = some (S.length + 1 + T.length) := by
  have hk : countLeading (fun c => c == ' ') (S ++ m :: (T ++ '\\' :: H)) = S.length := by
    refine countLeading_exact hS ?_
    intro c hc
    simp only [List.head?, Option.some.injEq] at hc
    rw [← hc]
    exact marker_ne_space hm
  unfold bulletPre
  dsimp only
  rw [hk, if_pos hk2, drop_len_append _ rfl]
  dsimp only
  rw [if_pos hm]
  have hj : countLeading (fun c => c == ' ') (T ++ '\\' :: H) = T.length := by
    refine countLeading_exact hT ?_
    intro c hc
    simp only [List.head?, Option.some.injEq] at hc
    rw [← hc]
    decide
  rw [hj, if_pos hT1]

theorem headingLine_idem (l : List Char) : headingLine (headingLine l) = headingLine l := by
  cases hbp : bulletPre l with
  | none =>
    cases hha : headingAt l with
    | false =>
      have ho := headingLine_none_neg hbp hha
      rw [ho, ho]
    | true =>
      have ho : headingLine l = '\\' :: l := headingLine_none_pos hbp hha
      have hbp2 : bulletPre ('\\' :: l) = none := by
        unfold bulletPre
        dsimp only
        rw [countLeading_cons_false (by decide), if_pos (by omega), List.drop_zero]
        dsimp only
        rw [if_neg (by decide)]
      have hha2 : headingAt ('\\' :: l) = false := headingAt_cons_bs l
      rw [ho]
      exact headingLine_none_neg hbp2 hha2
  | some n =>
    cases hha : headingAt (l.drop n) with
    | false =>
      have ho := headingLine_some_neg hbp hha
      rw [ho, ho]
    | true =>
      obtain ⟨m, rest, hk2, hdr, hm, hj, hn⟩ := bulletPre_some hbp
      set k := countLeading (fun c => c == ' ') l with hkdef
      set j := countLeading (fun c => c == ' ') rest with hjdef
      have ho : headingLine l = l.take n ++ '\\' :: l.drop n := headingLine_some_pos hbp hha
      have hHne : l.drop n ≠ [] := headingAt_ne_nil hha
      have hnlt : n < l.length := by
        by_contra hcon
        exact hHne (List.drop_eq_nil_of_le (by omega))
      have hklt : k < l.length := by
        have hld := List.length_drop k l
        rw [hdr] at hld
        simp only [List.length_cons] at hld
        omega
      have hSlen : (l.take k).length = k := by
        rw [List.length_take]
        omega
      have hjle : j ≤ rest.length := countLeading_le_length _ rest
      have hTlen : (rest.take j).length = j := by
        rw [List.length_take]
        omega
      have htn : l.take n = l.take k ++ m :: rest.take j := by
        rw [hn]
        have harith : k + 1 + j = k + (1 + j) := by omega
        rw [harith, List.take_add, hdr, show (1 + j) = j + 1 from Nat.add_comm 1 j,
          List.take_succ_cons]
      have hostruct : headingLine l = l.take k ++ m :: (rest.take j ++ '\\' :: l.drop n) := by
        rw [ho, htn]
        simp [List.append_assoc]
      have hbp2 : bulletPre (headingLine l) = some n := by
        have hS : ∀ a ∈ l.take k, (a == ' ') = true := by
          rw [hkdef]
          exact take_countLeading_all _ l
        have hT : ∀ a ∈ rest.take j, (a == ' ') = true := by
          rw [hjdef]
          exact take_countLeading_all _ rest
        rw [hostruct, bulletPre_build hS (by omega) hm hT (by omega), hSlen, hTlen]
        exact congrArg some hn.symm
      have hdropn : (headingLine l).drop n = '\\' :: l.drop n := by
        rw [ho]
        refine drop_len_append _ ?_
        rw [List.length_take]
        omega
      have hha2 : headingAt ((headingLine l).drop n) = false := by
        rw [hdropn]
        exact headingAt_cons_bs _
      exact headingLine_some_neg hbp2 hha2

/-! ### Idempotence of the line escapers, lifted to whole texts -/

theorem headingLine_no_nl {l : List Char} (h : '\n' ∉ l) : '\n' ∉ headingLine l := by
  unfold headingLine
  split
  · split
    · intro hm
      rcases List.mem_append.mp hm with h1 | h1
      · exact h (List.mem_of_mem_take h1)
      · rcases List.mem_cons.mp h1 with h2 | h2
        · exact absurd h2 (by decide)
        · exact h (List.mem_of_mem_drop h2)
    · exact h
  · split
    · intro hm
      rcases List.mem_cons.mp hm with h2 | h2
      · exact absurd h2 (by decide)
      · exact h h2
    · exact h

theorem numberedLine_no_nl {l : List Char} (h : '\n' ∉ l) : '\n' ∉ numberedLine l := by
  unfold numberedLine
  dsimp only
  split
  · intro hm
    rcases List.mem_append.mp hm with h1 | h1
    · exact h (List.mem_of_mem_take h1)
    · rcases List.mem_cons.mp h1 with h2 | h2
      · exact absurd h2 (by decide)
      · exact h (List.mem_of_mem_drop h2)
  · exact h

theorem bulletedLine_no_nl {l : List Char} (h : '\n' ∉ l) : '\n' ∉ bulletedLine l := by
  unfold bulletedLine
  dsimp only
  split
  · exact h
  · next m rest hdr =>
    split
    · split
      · intro hm
        rcases List.mem_append.mp hm with h1 | h1
        · exact h (List.mem_of_mem_take h1)
        · rcases List.mem_cons.mp h1 with h2 | h2
          · exact absurd h2 (by decide)
          · rcases List.mem_cons.mp h2 with h3 | h3
            · exact absurd h3 (by decide)
            · exact h (List.mem_of_mem_drop (hdr ▸ List.mem_cons_of_mem m h3))
      · exact h
    · exact h

theorem perLine_idem {f : List Char → List Char} (hid : ∀ l, f (f l) = f l)
    (hnl : ∀ l, '\n' ∉ l → '\n' ∉ f l) (s : List Char) :
    perLine f (perLine f s) = perLine f s := by
  unfold perLine
  have hparts : ∀ p ∈ splitCh '\n' s, '\n' ∉ p :=
    splitChGo_not_mem '\n' s.length s (Nat.le_refl _)
  have hne : (splitCh '\n' s).map f ≠ [] := by
    intro hmm
    exact splitChGo_ne_nil '\n' s.length s (List.map_eq_nil_iff.mp hmm)
  have hmem : ∀ l ∈ (splitCh '\n' s).map f, '\n' ∉ l := by
    intro l hl
    obtain ⟨p, hp, rfl⟩ := List.mem_map.mp hl
    exact hnl p (hparts p hp)
  rw [splitCh_joinSep '\n' _ hne hmem, List.map_map]
  congr 1
  refine List.map_congr_left ?_
  intro a _
  exact hid a

theorem escapeHeading_idem (s : List Char) :
    escapeHeading (escapeHeading s) = escapeHeading s :=
  perLine_idem headingLine_idem (fun _ => headingLine_no_nl) s

theorem escapeBulletedList_idem (s : List Char) :
    escapeBulletedList (escapeBulletedList s) = escapeBulletedList s :=
  perLine_idem bulletedLine_idem (fun _ => bulletedLine_no_nl) s

theorem escapeNumberedList_idem (s : List Char) :
    escapeNumberedList (escapeNumberedList s) = escapeNumberedList s :=
  perLine_idem numberedLine_idem (fun _ => numberedLine_no_nl) s

/-! ### The literal recursion agrees with the unrolled definition -/

theorem escapeMarkdownRec_base (o : MDOpts) (h1 : o.codeBlockContent = true)
    (h2 : o.inlineCodeContent = true) (t : List Char) :
    escapeMarkdownRec o t = applyAll o t := by
  rw [escapeMarkdownRec]
  rw [if_neg (by simp [h1]), if_neg (by simp [h2])]

theorem escapeMarkdownRec_inl (o : MDOpts) (h1 : o.codeBlockContent = true) (t : List Char) :
    escapeMarkdownRec o t = escapeMarkdownInl o t := by
  by_cases h2 : o.inlineCodeContent = false
  · rw [escapeMarkdownRec]
    rw [if_neg (by simp [h1])]
    unfold escapeMarkdownInl
    rw [if_pos h2, if_pos h2]
    dsimp only
    congr 1
    rw [mapWithIdx]
    refine mapIdxFrom_congr 0 _ ?_
    intro j a _
    by_cases hP : j % 2 = 1 ∧ j ≠ (splitInline t).length - 1
    · rw [if_pos hP, if_pos hP]
    · rw [if_neg hP, if_neg hP]
      exact escapeMarkdownRec_base (inlRecOpts o) rfl rfl a
  · have h2' : o.inlineCodeContent = true := by
      revert h2
      cases o.inlineCodeContent <;> simp
    rw [escapeMarkdownRec_base o h1 h2']
    unfold escapeMarkdownInl
    rw [if_neg h2]

/-- The source's literal recursive `escapeMarkdown` equals the unrolled
definition used throughout this development. -/
theorem escapeMarkdownRec_eq (o : MDOpts) (t : List Char) :
    escapeMarkdownRec o t = escapeMarkdown o t := by
  by_cases h1 : o.codeBlockContent = false
  · rw [escapeMarkdownRec]
    unfold escapeMarkdown
    rw [if_pos h1, if_pos h1]
    dsimp only
    congr 1
    rw [mapWithIdx]
    refine mapIdxFrom_congr 0 _ ?_
    intro j a _
    by_cases hP : j % 2 = 1 ∧ j ≠ (splitTok fence t).length - 1
    · rw [if_pos hP, if_pos hP]
    · rw [if_neg hP, if_neg hP]
      exact escapeMarkdownRec_inl (cbRecOpts o) rfl a
  · have h1' : o.codeBlockContent = true := by
      revert h1
      cases o.codeBlockContent <;> simp
    rw [escapeMarkdownRec_inl o h1']
    unfold escapeMarkdown
    rw [if_neg h1]

/-! ### Branch characterizations of the composer -/

theorem escapeMarkdown_of_cbcTrue (o : MDOpts) (h : o.codeBlockContent = true)
    (t : List Char) : escapeMarkdown o t = escapeMarkdownInl o t := by
  unfold escapeMarkdown
  rw [if_neg (by simp [h])]

theorem escapeMarkdownInl_of_iccTrue (o : MDOpts) (h : o.inlineCodeContent = true)
    (t : List Char) : escapeMarkdownInl o t = applyAll o t := by
  unfold escapeMarkdownInl
  rw [if_neg (by simp [h])]

/-- The `!codeBlockContent` branch: split on the fence, protect the
odd-indexed middle regions, escape the rest with `cbRecOpts o`, and rejoin. -/
theorem escapeMarkdown_cbcFalse (o : MDOpts) (h : o.codeBlockContent = false)
    (t : List Char) :
    escapeMarkdown o t =
      joinSep (if o.codeBlock then escFence else fence)
        (protectOddMiddle (escapeMarkdown (cbRecOpts o)) (splitTok fence t)) := by
  unfold escapeMarkdown
  rw [if_pos h]
  rfl

/-- The `!inlineCodeContent` branch (reached when `codeBlockContent` is
true): split on isolated backticks, protect the odd-indexed middle regions,
escape the rest with `inlRecOpts o`, and rejoin. -/
theorem escapeMarkdown_iccFalse (o : MDOpts) (h1 : o.codeBlockContent = true)
    (h2 : o.inlineCodeContent = false) (t : List Char) :
    escapeMarkdown o t =
      joinSep (if o.inlineCode then ['\\', bt] else [bt])
        (protectOddMiddle (escapeMarkdown (inlRecOpts o)) (splitInline t)) := by
  rw [escapeMarkdown_of_cbcTrue o h1]
  unfold escapeMarkdownInl
  rw [if_pos h2]
  rfl

/-! ### Step equivalences with the claim-side definitions -/

theorem italicStep_eq_spec (mk : Char) (st : Option Char × Nat) (c : Char) (cs : List Char) :
    italicStep mk st c cs = italicSpecStep mk st c cs := by
  unfold italicStep italicSpecStep italicCapture
  by_cases hc : c = mk ∧ st.1 ≠ some mk
  · rw [if_pos hc, if_pos hc]
    cases cs with
    | nil => rfl
    | cons d ds =>
      cases ds with
      | nil =>
        by_cases hd : d = mk
        · simp [hd]
        · simp [hd]
      | cons e es =>
        by_cases hd : d = mk
        · by_cases he : e = mk
          · simp [hd, he]
          · simp [hd, he]
        · simp [hd]
  · rw [if_neg hc, if_neg hc]

theorem boldStep_eq_amended (mk : Char) (i : Nat) (c : Char) (cs : List Char) :
    boldStep mk i c cs = boldAmendedStep mk i c cs := by
  unfold boldStep boldAmendedStep boldCapture
  by_cases hc : c = mk
  · rw [if_pos hc, if_pos hc]
    cases cs with
    | nil => rfl
    | cons d ds =>
      cases ds with
      | nil =>
        by_cases hd : d = mk
        · simp [hd]
        · simp [hd]
      | cons e es =>
        by_cases hd : d = mk
        · by_cases he : e = mk
          · simp [hd, he]
          · simp [hd, he]
        · simp [hd]
  · rw [if_neg hc, if_neg hc]

theorem maskedStep_eq_amended (st : Unit) (c : Char) (cs : List Char) :
    maskedStep st c cs = maskedAmendedStep st c cs := rfl

/-! ### Single-construct configurations evaluate to the single escaper -/

theorem escapeMarkdown_onlyHeading (t : List Char) :
    escapeMarkdown onlyHeading t = escapeHeading t := rfl

theorem escapeMarkdown_onlyBulletedList (t : List Char) :
    escapeMarkdown onlyBulletedList t = escapeBulletedList t := rfl

theorem escapeMarkdown_onlyNumberedList (t : List Char) :
    escapeMarkdown onlyNumberedList t = escapeNumberedList t := rfl

/-! ### Claim theorems -/

/-- Claim C1: when `escapeMarkdown` is called with `codeBlockContent = false`,
the text is split on occurrences of the triple-backtick fence; a region of
the split is left untouched exactly when its index is odd and it is not the
final region, every other region is recursively escaped, and the regions are
rejoined with the escaped fence when `codeBlock` is enabled and with the
literal fence otherwise. -/
theorem c1_codeblock_split (o : MDOpts) (t : List Char) (h : o.codeBlockContent = false) :
    escapeMarkdown o t =
      joinSep (if o.codeBlock then escFence else fence)
        (protectOddMiddle (escapeMarkdown (cbRecOpts o)) (splitTok fence t)) :=
  escapeMarkdown_cbcFalse o h t

/-- Witness for claim C1 at a concrete option set and input. -/
theorem c1_codeblock_split_witness :
    (({ codeBlockContent := false } : MDOpts).codeBlockContent = false) ∧
      escapeMarkdown { codeBlockContent := false } ("a```b```c".data) =
        joinSep (if ({ codeBlockContent := false } : MDOpts).codeBlock then escFence else fence)
          (protectOddMiddle (escapeMarkdown (cbRecOpts { codeBlockContent := false }))
            (splitTok fence ("a```b```c".data))) :=
  ⟨rfl, c1_codeblock_split _ _ rfl⟩

/-- Claim C2: `escapeItalic` processes the `*` markers first and then the `_`
markers, independently; each marker occurrence not preceded by the same
marker captures the following single non-marker character, doubled marker
pair, or end of string; exactly when the capture is the doubled marker the
per-invocation counter increments, with odd increments inserting the
backslash before the single marker (pair unescaped) and even increments
inserting it after the captured pair; every other capture is escaped in
place with no counter interaction. -/
theorem c2_italic_toggle (s : List Char) : escapeItalic s = escapeItalicSpec s := by
  unfold escapeItalic escapeItalicSpec italicPass rwAll
  rw [rwGo_congr _ _ _ _ (italicStep_eq_spec '*') (fun _ _ => rfl)]
  rw [rwGo_congr _ _ _ _ (italicStep_eq_spec '_') (fun _ _ => rfl)]

/-- Claim C3 counterexample: on the first (odd-increment) triple match the
code emits the captured single marker followed by the escaped pair, `*\*\*`,
whereas the claim's odd rule (doubled pair backslashed with the escape placed
before and the single trailing marker left) prescribes `\*\**`. -/
theorem c3_bold_counterexample :
    escapeBold ("***".data) = "*\\*\\*".data ∧
      escapeBoldClaim ("***".data) = "\\*\\**".data ∧
      escapeBold ("***".data) ≠ escapeBoldClaim ("***".data) := by
  refine ⟨?_, ?_, ?_⟩ <;> decide

/-- Claim C3 (amended): `escapeBold` matches each `**` with an optional third
`*`; a triple match increments the per-invocation counter, odd increments
emitting the captured single marker followed by the escaped doubled pair and
even increments the escaped doubled pair followed by the captured single
marker; a bare `**` match becomes the escaped pair with no counter effect. -/
theorem c3_bold_amended (s : List Char) : escapeBold s = escapeBoldAmended s := by
  unfold escapeBold escapeBoldAmended rwAll
  rw [rwGo_congr _ _ _ _ (boldStep_eq_amended '*') (fun _ _ => rfl)]

/-- Claim C4: with both content flags true, `escapeMarkdown` applies exactly
the enabled per-construct escapers to the whole text, each consuming the
previous one's output, in the fixed order escape-character, inline-code,
code-block, italic, bold, underline, strikethrough, spoiler, heading,
bulleted-list, numbered-list, masked-link. -/
theorem c4_fixed_order (o : MDOpts) (t : List Char) (h1 : o.codeBlockContent = true)
    (h2 : o.inlineCodeContent = true) :
    escapeMarkdown o t =
      applyIf o.maskedLink escapeMaskedLink
        (applyIf o.numberedList escapeNumberedList
          (applyIf o.bulletedList escapeBulletedList
            (applyIf o.heading escapeHeading
              (applyIf o.spoiler escapeSpoiler
                (applyIf o.strikethrough escapeStrikethrough
                  (applyIf o.underline escapeUnderline
                    (applyIf o.bold escapeBold
                      (applyIf o.italic escapeItalic
                        (applyIf o.codeBlock escapeCodeBlock
                          (applyIf o.inlineCode escapeInlineCode
                            (applyIf o.escape escapeEscape t))))))))))) := by
  rw [escapeMarkdown_of_cbcTrue o h1, escapeMarkdownInl_of_iccTrue o h2]
  rfl

/-- Witness for claim C4 at the default options and a concrete input. -/
theorem c4_fixed_order_witness :
    (({} : MDOpts).codeBlockContent = true) ∧ (({} : MDOpts).inlineCodeContent = true) ∧
      escapeMarkdown {} ("**bold**".data) =
        applyIf ({} : MDOpts).maskedLink escapeMaskedLink
          (applyIf ({} : MDOpts).numberedList escapeNumberedList
            (applyIf ({} : MDOpts).bulletedList escapeBulletedList
              (applyIf ({} : MDOpts).heading escapeHeading
                (applyIf ({} : MDOpts).spoiler escapeSpoiler
                  (applyIf ({} : MDOpts).strikethrough escapeStrikethrough
                    (applyIf ({} : MDOpts).underline escapeUnderline
                      (applyIf ({} : MDOpts).bold escapeBold
                        (applyIf ({} : MDOpts).italic escapeItalic
                          (applyIf ({} : MDOpts).codeBlock escapeCodeBlock
                            (applyIf ({} : MDOpts).inlineCode escapeInlineCode
                              (applyIf ({} : MDOpts).escape escapeEscape
                                ("**bold**".data)))))))))))) :=
  ⟨rfl, rfl, c4_fixed_order {} _ rfl rfl⟩

/-- Claim C5 counterexample: with only `inlineCode` enabled (every other
construct including `escape` disabled), escaping a single backtick twice adds
a second backslash, so per-construct escaping is not idempotent as claimed. -/
theorem c5_idempotence_counterexample :
    escapeMarkdown onlyInlineCode (escapeMarkdown onlyInlineCode ("`".data)) ≠
      escapeMarkdown onlyInlineCode ("`".data) := by
  decide

/-- Claim C5 (amended): with a single construct enabled and all others
disabled, escaping is idempotent for the heading, bulleted-list and
numbered-list constructs, but for each of the other constructs there are
strings on which a second application inserts further backslashes. -/
theorem c5_idempotence_amended :
    (∀ t, escapeMarkdown onlyHeading (escapeMarkdown onlyHeading t) =
        escapeMarkdown onlyHeading t) ∧
    (∀ t, escapeMarkdown onlyBulletedList (escapeMarkdown onlyBulletedList t) =
        escapeMarkdown onlyBulletedList t) ∧
    (∀ t, escapeMarkdown onlyNumberedList (escapeMarkdown onlyNumberedList t) =
        escapeMarkdown onlyNumberedList t) ∧
    escapeMarkdown onlyCodeBlock (escapeMarkdown onlyCodeBlock ("`````".data)) ≠
      escapeMarkdown onlyCodeBlock ("`````".data) ∧
    escapeMarkdown onlyItalic (escapeMarkdown onlyItalic ("*".data)) ≠
      escapeMarkdown onlyItalic ("*".data) ∧
    escapeMarkdown onlyBold (escapeMarkdown onlyBold ("****".data)) ≠
      escapeMarkdown onlyBold ("****".data) ∧
    escapeMarkdown onlyUnderline (escapeMarkdown onlyUnderline ("____".data)) ≠
      escapeMarkdown onlyUnderline ("____".data) ∧
    escapeMarkdown onlyStrikethrough (escapeMarkdown onlyStrikethrough ("~~~".data)) ≠
      escapeMarkdown onlyStrikethrough ("~~~".data) ∧
    escapeMarkdown onlySpoiler (escapeMarkdown onlySpoiler ("|||".data)) ≠
      escapeMarkdown onlySpoiler ("|||".data) ∧
    escapeMarkdown onlyMaskedLink (escapeMarkdown onlyMaskedLink ("[a](b)".data)) ≠
      escapeMarkdown onlyMaskedLink ("[a](b)".data) := by
  refine ⟨?_, ?_, ?_, ?_, ?_, ?_, ?_, ?_, ?_, ?_⟩
  · intro t
    simp only [escapeMarkdown_onlyHeading]
    exact escapeHeading_idem t
  · intro t
    simp only [escapeMarkdown_onlyBulletedList]
    exact escapeBulletedList_idem t
  · intro t
    simp only [escapeMarkdown_onlyNumberedList]
    exact escapeNumberedList_idem t
  all_goals decide

/-- Claim C6 counterexample: `escapeBulletedList` rewrites the `*` list
marker to `-`, so it does not only insert backslashes, and stripping the
inserted backslash from its output yields `- x` instead of the original
`* x`. -/
theorem c6_roundtrip_counterexample :
    eraseBS (escapeBulletedList ("* x".data)) = "- x".data ∧
      eraseBS ("* x".data) = "* x".data ∧ ("- x".data : List Char) ≠ "* x".data := by
  refine ⟨?_, ?_, ?_⟩ <;> decide

/-- Claim C6 (amended): every escaper except the bulleted-list one only
inserts backslashes — deleting all backslashes from its output gives the
input with its backslashes deleted — and the same holds for the whole
`escapeMarkdown` whenever `bulletedList` is disabled; the bulleted-list
escaper additionally rewrites a `*` marker to `-`, breaking that property. -/
theorem c6_roundtrip_amended :
    (∀ (o : MDOpts) (t : List Char), o.bulletedList = false →
      eraseBS (escapeMarkdown o t) = eraseBS t) ∧
    (∀ s, eraseBS (escapeEscape s) = eraseBS s) ∧
    (∀ s, eraseBS (escapeInlineCode s) = eraseBS s) ∧
    (∀ s, eraseBS (escapeCodeBlock s) = eraseBS s) ∧
    (∀ s, eraseBS (escapeItalic s) = eraseBS s) ∧
    (∀ s, eraseBS (escapeBold s) = eraseBS s) ∧
    (∀ s, eraseBS (escapeUnderline s) = eraseBS s) ∧
    (∀ s, eraseBS (escapeStrikethrough s) = eraseBS s) ∧
    (∀ s, eraseBS (escapeSpoiler s) = eraseBS s) ∧
    (∀ s, eraseBS (escapeHeading s) = eraseBS s) ∧
    (∀ s, eraseBS (escapeNumberedList s) = eraseBS s) ∧
    (∀ s, eraseBS (escapeMaskedLink s) = eraseBS s) ∧
    eraseBS (escapeBulletedList ("* x".data)) ≠ eraseBS ("* x".data) :=
  ⟨fun o t h => escapeMarkdown_eraseBS o h t, eraseBS_escapeEscape, eraseBS_escapeInlineCode,
    eraseBS_escapeCodeBlock, eraseBS_escapeItalic, eraseBS_escapeBold, eraseBS_escapeUnderline,
    eraseBS_escapeStrikethrough, eraseBS_escapeSpoiler, eraseBS_escapeHeading,
    eraseBS_escapeNumberedList, eraseBS_escapeMaskedLink, by decide⟩

/-- Witness for the amended claim C6 at the default options. -/
theorem c6_roundtrip_amended_witness :
    (({} : MDOpts).bulletedList = false) ∧
      eraseBS (escapeMarkdown {} ("**x**".data)) = eraseBS ("**x**".data) :=
  ⟨rfl, c6_roundtrip_amended.1 {} ("**x**".data) rfl⟩

/-- Claim C7 counterexample: with `inlineCodeContent = false` and all other
options at their defaults, the two delimiting backticks are rejoined as
`\\`` because `inlineCode` defaults to true, so the input is not returned
unchanged. -/
theorem c7_inline_protection_counterexample :
    escapeMarkdown { inlineCodeContent := false } ("`inline`".data) ≠ ("`inline`".data) := by
  decide

/-- Claim C7 (amended): with `inlineCodeContent = false` and the other
defaults, the span content is protected but the delimiters are escaped,
yielding `\\`inline\\``; the input comes back unchanged only when
`inlineCode` is disabled as well. -/
theorem c7_inline_protection_amended :
    escapeMarkdown { inlineCodeContent := false } ("`inline`".data) = "\\`inline\\`".data ∧
      escapeMarkdown { inlineCodeContent := false, inlineCode := false } ("`inline`".data) =
        ("`inline`".data) := by
  refine ⟨?_, ?_⟩ <;> decide

/-- Claim C8 counterexample: in the inline-code branch the recursive call
omits `inlineCode`, which therefore resets to true; with every construct flag
false in the caller, the final region still gets its backticks escaped, so
the regions are not escaped according to the caller's remaining flags. -/
theorem c8_recursion_opts_counterexample :
    escapeMarkdown c8opts ("a`b` ``c".data) = "a`b` \\`\\`c".data ∧
      escapeMarkdown c8opts ("a`b` ``c".data) ≠ ("a`b` ``c".data) := by
  refine ⟨?_, ?_⟩ <;> decide

/-- Claim C8 (amended): each protection branch passes through the listed
options but also omits its own construct flag, so the code-block branch
recurses with `codeBlockContent` and `codeBlock` reset to true, and the
inline-code branch recurses with `inlineCodeContent`, `codeBlockContent` and
`inlineCode` reset to true, all other flags keeping the caller's values. -/
theorem c8_recursion_opts_amended :
    (∀ (o : MDOpts) (t : List Char), o.codeBlockContent = false →
      escapeMarkdown o t =
        joinSep (if o.codeBlock then escFence else fence)
          (protectOddMiddle
            (escapeMarkdown { o with codeBlockContent := true, codeBlock := true })
            (splitTok fence t))) ∧
    (∀ (o : MDOpts) (t : List Char), o.codeBlockContent = true →
      o.inlineCodeContent = false →
      escapeMarkdown o t =
        joinSep (if o.inlineCode then ['\\', bt] else [bt])
          (protectOddMiddle
            (escapeMarkdown
              { o with
                inlineCodeContent := true
                codeBlockContent := true
                inlineCode := true })
            (splitInline t))) :=
  ⟨fun o t h => escapeMarkdown_cbcFalse o h t,
    fun o t h1 h2 => escapeMarkdown_iccFalse o h1 h2 t⟩

/-- Witness for the amended claim C8 at concrete options and input. -/
theorem c8_recursion_opts_amended_witness :
    (({ codeBlockContent := false } : MDOpts).codeBlockContent = false) ∧
      escapeMarkdown { codeBlockContent := false } ("x```y```z".data) =
        joinSep
          (if ({ codeBlockContent := false } : MDOpts).codeBlock then escFence else fence)
          (protectOddMiddle
            (escapeMarkdown
              { ({ codeBlockContent := false } : MDOpts) with
                codeBlockContent := true
                codeBlock := true })
            (splitTok fence ("x```y```z".data))) :=
  ⟨rfl, c8_recursion_opts_amended.1 { codeBlockContent := false } ("x```y```z".data) rfl⟩

/-- Claim C9 counterexample: the masked-link regex is greedy, so the two
spans `[a](b)` and `[c](d)` on one line merge into a single match and only
the first receives a backslash; the span `[c](d)` is not prefixed. -/
theorem c9_maskedlink_counterexample :
    escapeMaskedLink ("[a](b) [c](d)".data) = "\\[a](b) [c](d)".data ∧
      escapeMaskedLink ("[a](b) [c](d)".data) ≠ "\\[a](b) \\[c](d)".data := by
  refine ⟨?_, ?_⟩ <;> decide

/-- Claim C9 (amended): each greedy, leftmost match of the masked-link
pattern — which may merge several `[text](url)` spans of one line — is
escaped by prefixing the entire match with a single backslash and no
character inside the match is individually escaped; an isolated span is
prefixed exactly as the claim states. -/
theorem c9_maskedlink_amended :
    (∀ s, escapeMaskedLink s = escapeMaskedLinkAmended s) ∧
      escapeMaskedLink ("[a](b)".data) = "\\[a](b)".data ∧
      escapeMaskedLink ("x [a](b) y".data) = "x \\[a](b) y".data :=
  ⟨fun s => by
      unfold escapeMaskedLink escapeMaskedLinkAmended rwAll
      rw [rwGo_congr _ _ _ _ maskedStep_eq_amended (fun _ _ => rfl)],
    by decide, by decide⟩

/-- Claim C10: the output of `escapeMarkdown` is at least as long as its
input for every options configuration, and the same holds for each
individual escaper: no rewrite ever deletes characters. -/
theorem c10_length_monotone :
    (∀ (o : MDOpts) (t : List Char), t.length ≤ (escapeMarkdown o t).length) ∧
    (∀ s : List Char, s.length ≤ (escapeCodeBlock s).length) ∧
    (∀ s : List Char, s.length ≤ (escapeInlineCode s).length) ∧
    (∀ s : List Char, s.length ≤ (escapeItalic s).length) ∧
    (∀ s : List Char, s.length ≤ (escapeBold s).length) ∧
    (∀ s : List Char, s.length ≤ (escapeUnderline s).length) ∧
    (∀ s : List Char, s.length ≤ (escapeStrikethrough s).length) ∧
    (∀ s : List Char, s.length ≤ (escapeSpoiler s).length) ∧
    (∀ s : List Char, s.length ≤ (escapeEscape s).length) ∧
    (∀ s : List Char, s.length ≤ (escapeHeading s).length) ∧
    (∀ s : List Char, s.length ≤ (escapeBulletedList s).length) ∧
    (∀ s : List Char, s.length ≤ (escapeNumberedList s).length) ∧
    (∀ s : List Char, s.length ≤ (escapeMaskedLink s).length) :=
  ⟨escapeMarkdown_length, length_escapeCodeBlock, length_escapeInlineCode, length_escapeItalic,
    length_escapeBold, length_escapeUnderline, length_escapeStrikethrough, length_escapeSpoiler,
    length_escapeEscape, length_escapeHeading, length_escapeBulletedList,
    length_escapeNumberedList, length_escapeMaskedLink⟩

end MdEscape
